import Mathlib

/-!
Verification development for the Smart-Product-Search repository.

The Python sources under `app/services` (keyword_search.py, search.py,
hybrid_search.py), `app/main.py` (the webhook ingestion handlers) and
`app/core/database.py` are shallowly embedded below.

Modelling conventions:
* Python `dict`s are insertion-ordered association lists (`DMap`); inserting
  an existing key updates it in place, a new key is appended, which is
  exactly CPython's dict ordering.
* Python `set`s of doc ids are duplicate-free lists; where the source
  iterates over a set whose order is unobservable in the final state we fix
  first-occurrence order, and where the order is observable (the candidate
  set of the hybrid ranker) the enumeration is an explicit parameter.
* Python floats are modelled as exact rationals, extended with the IEEE
  special values (`PF.nan`, infinities) where the source can divide by
  zero; comparisons with `nan` are false, as in IEEE 754.
* `math.log` and `numpy` square roots are opaque numeric routines from the
  source's point of view, so they enter the model as function parameters.
-/

/-! ## Ordered dictionaries (CPython `dict` semantics) -/

/-- Insertion-ordered map from string keys, modelling a Python `dict`. -/
abbrev DMap (α : Type) := List (String × α)

/-- `m[k]` lookup returning an `Option`. -/
def dget {α : Type} (m : DMap α) (k : String) : Option α :=
  match m with
  | [] => none
  | (k', v) :: rest => if k' = k then some v else dget rest k

/-- `m.get(k, d)` with a default. -/
def dgetD {α : Type} (m : DMap α) (k : String) (d : α) : α :=
  (dget m k).getD d

/-- `m[k] = v`: update in place if present, else append (CPython order). -/
def dinsert {α : Type} (m : DMap α) (k : String) (v : α) : DMap α :=
  match m with
  | [] => [(k, v)]
  | (k', v') :: rest =>
      if k' = k then (k', v) :: rest else (k', v') :: dinsert rest k v

/-- `m.pop(k, None)` / `del m[k]`: remove every binding of `k`. -/
def dremove {α : Type} (m : DMap α) (k : String) : DMap α :=
  m.filter (fun p => p.1 ≠ k)

/-- `list(m.keys())` in dict order. -/
def dkeys {α : Type} (m : DMap α) : List String :=
  m.map (fun p => p.1)

/-- `list(m.values())` in dict order. -/
def dvals {α : Type} (m : DMap α) : List α :=
  m.map (fun p => p.2)

/-- `k in m`. -/
def dmem {α : Type} (m : DMap α) (k : String) : Bool :=
  (dget m k).isSome

/-! ## Sets of doc ids (Python `set`) -/

/-- `s.add(x)`: no-op when present, else append (first-occurrence order). -/
def sadd (s : List String) (x : String) : List String :=
  if x ∈ s then s else s ++ [x]

/-- `s.discard(x)`. -/
def sdiscard (s : List String) (x : String) : List String :=
  s.filter (fun y => y ≠ x)

/-! ## Banker's rounding to 4 decimals (Python `round(x, 4)`) -/

/-- Round-half-to-even on rationals, Python's `round` for the exact value. -/
def roundHalfEven (x : ℚ) : ℤ :=
  let f : ℤ := ⌊x⌋
  let r : ℚ := x - (f : ℚ)
  if r < 1/2 then f
  else if 1/2 < r then f + 1
  else if f % 2 = 0 then f else f + 1

/-- `round(x, 4)` on the exact rational value. -/
def round4 (x : ℚ) : ℚ :=
  ((roundHalfEven (x * 10000) : ℤ) : ℚ) / 10000

/-! ## Float model with IEEE special values -/

/-- A Python/numpy float: exact rational, or one of the special values. -/
inductive PF where
  | nan : PF
  | pinf : PF
  | ninf : PF
  | val (x : ℚ) : PF
deriving DecidableEq

namespace PF

/-- IEEE division of finite floats, producing specials on a zero divisor. -/
def fdiv (a b : ℚ) : PF :=
  if b = 0 then
    (if a = 0 then nan else if 0 < a then pinf else ninf)
  else val (a / b)

/-- `x >= m` for a float `x` against a finite bound; false on `nan`. -/
def geQ (p : PF) (m : ℚ) : Bool :=
  match p with
  | nan => false
  | pinf => true
  | ninf => false
  | val x => decide (m ≤ x)

/-- `x > y` on floats; false whenever `nan` is involved. -/
def gtB (p q : PF) : Bool :=
  match p, q with
  | val x, val y => decide (y < x)
  | pinf, val _ => true
  | pinf, ninf => true
  | val _, ninf => true
  | _, _ => false

/-- `x >= y` on floats; false whenever `nan` is involved. -/
def geB (p q : PF) : Bool :=
  match p, q with
  | val x, val y => decide (y ≤ x)
  | pinf, val _ => true
  | pinf, pinf => true
  | pinf, ninf => true
  | val _, ninf => true
  | ninf, ninf => true
  | _, _ => false

/-- Float subtraction. -/
def sub (p q : PF) : PF :=
  match p, q with
  | val x, val y => val (x - y)
  | pinf, val _ => pinf
  | ninf, val _ => ninf
  | val _, pinf => ninf
  | val _, ninf => pinf
  | pinf, ninf => pinf
  | ninf, pinf => ninf
  | _, _ => nan

/-- Float addition. -/
def add (p q : PF) : PF :=
  match p, q with
  | val x, val y => val (x + y)
  | pinf, val _ => pinf
  | val _, pinf => pinf
  | ninf, val _ => ninf
  | val _, ninf => ninf
  | pinf, pinf => pinf
  | ninf, ninf => ninf
  | _, _ => nan

/-- Float multiplication (sign-correct on infinities). -/
def mul (p q : PF) : PF :=
  match p, q with
  | val x, val y => val (x * y)
  | pinf, val y => if y = 0 then nan else if 0 < y then pinf else ninf
  | val x, pinf => if x = 0 then nan else if 0 < x then pinf else ninf
  | ninf, val y => if y = 0 then nan else if 0 < y then ninf else pinf
  | val x, ninf => if x = 0 then nan else if 0 < x then ninf else pinf
  | pinf, pinf => pinf
  | ninf, ninf => pinf
  | pinf, ninf => ninf
  | ninf, pinf => ninf
  | _, _ => nan

/-- Float division of two floats. -/
def div (p q : PF) : PF :=
  match p, q with
  | val x, val y => fdiv x y
  | pinf, val y => if 0 ≤ y then pinf else ninf
  | ninf, val y => if 0 ≤ y then ninf else pinf
  | val _, pinf => val 0
  | val _, ninf => val 0
  | _, _ => nan

/-- `round(x, 4)` lifted to floats; specials round to themselves. -/
def round4F (p : PF) : PF :=
  match p with
  | val x => val (round4 x)
  | q => q

/-- Python `max(a, b)`: `b if b > a else a`. -/
def pmax2 (a b : PF) : PF := if gtB b a then b else a

/-- Python `min(a, b)`: `b if b < a else a`. -/
def pmin2 (a b : PF) : PF := if gtB a b then b else a

/-- Python `max(xs)` over a nonempty list, folding from the left. -/
def pmaxL (x : PF) (xs : List PF) : PF := xs.foldl pmax2 x

/-- Python `min(xs)` over a nonempty list, folding from the left. -/
def pminL (x : PF) (xs : List PF) : PF := xs.foldl pmin2 x

end PF

/-! ## Stable sorting (Python `sorted(..., reverse=True)`) -/

/-- Insert `x` before the first element it compares `geB`-true against.
With `geB x y` meaning "key of x ≥ key of y" this reproduces the stable
descending sort of Python's `sorted(..., key=..., reverse=True)`. -/
def insDesc {α : Type} (geB : α → α → Bool) (x : α) : List α → List α
  | [] => [x]
  | y :: ys => if geB x y then x :: y :: ys else y :: insDesc geB x ys

/-- Stable descending insertion sort. -/
def sortDesc {α : Type} (geB : α → α → Bool) : List α → List α
  | [] => []
  | x :: xs => insDesc geB x (sortDesc geB xs)

theorem insDesc_perm {α : Type} (geB : α → α → Bool) (x : α) (l : List α) :
    (insDesc geB x l).Perm (x :: l) := by
  induction l with
  | nil => simp [insDesc]
  | cons y ys ih =>
      by_cases h : geB x y = true
      · simp [insDesc, h]
      · simp only [insDesc, h, Bool.false_eq_true, if_false]
        exact (ih.cons y).trans (List.Perm.swap x y ys)

theorem sortDesc_perm {α : Type} (geB : α → α → Bool) (l : List α) :
    (sortDesc geB l).Perm l := by
  induction l with
  | nil => simp [sortDesc]
  | cons x xs ih =>
      exact (insDesc_perm geB x (sortDesc geB xs)).trans (ih.cons x)

theorem mem_sortDesc {α : Type} (geB : α → α → Bool) (l : List α) (a : α) :
    a ∈ sortDesc geB l ↔ a ∈ l :=
  (sortDesc_perm geB l).mem_iff

theorem length_sortDesc {α : Type} (geB : α → α → Bool) (l : List α) :
    (sortDesc geB l).length = l.length :=
  (sortDesc_perm geB l).length_eq

/-! ## Tokenizer (`keyword_search.preprocess_text` / `tokenize_text`) -/

/-- The fixed stopword set of `keyword_search.STOPWORDS`. -/
def STOPWORDS : List String :=
  ["a", "an", "and", "are", "as", "at", "be", "by", "for", "from", "has",
   "he", "in", "is", "it", "its", "of", "on", "that", "the", "to", "was",
   "will", "with"]

/-- Membership in Python's `string.punctuation` (ASCII codes 33-47, 58-64,
91-96, 123-126). -/
def isPunctChar (c : Char) : Bool :=
  let n := c.toNat
  (33 ≤ n && n ≤ 47) || (58 ≤ n && n ≤ 64) ||
    (91 ≤ n && n ≤ 96) || (123 ≤ n && n ≤ 126)

/-- `preprocess_text`: lowercase, then delete ASCII punctuation.  The model
covers ASCII text, which is what every theorem below instantiates. -/
def preprocess_text (s : String) : String :=
  String.mk ((s.toList.map Char.toLower).filter (fun c => !isPunctChar c))

/-- `str.split()`: split on runs of whitespace, no empty tokens. -/
def splitWSAux : List Char → List Char → List String
  | [], acc => if acc.isEmpty then [] else [String.mk acc.reverse]
  | c :: cs, acc =>
      if c.isWhitespace then
        if acc.isEmpty then splitWSAux cs []
        else String.mk acc.reverse :: splitWSAux cs []
      else splitWSAux cs (c :: acc)

/-- `text.split()` for a preprocessed string. -/
def splitWS (s : String) : List String := splitWSAux s.toList []

/-- `tokenize_text`, parameterised by the stemmer the source obtains from
the external `nltk` package. -/
def tokenize_text (stem : String → String) (text : String) : List String :=
  let tokens := splitWS (preprocess_text text)
  let filtered := tokens.filter (fun tok => (tok != "") && !(STOPWORDS.contains tok))
  filtered.map stem

/-! ## Porter stemmer

Modelled from the spec: the source calls `nltk.stem.PorterStemmer`, which
lives outside this repository; the spec describes it as "a Porter-style
suffix-stripping stemmer", so the classic Porter (1980) algorithm is
implemented here and is what every concrete witness evaluates. -/

namespace Porter

/-- Consonant flags of a word, left to right (`true` = consonant).  A `y`
is a consonant exactly when not preceded by a consonant. -/
def consFlagsAux : Option Bool → List Char → List Bool
  | _, [] => []
  | prev, c :: cs =>
      let f :=
        if c = 'a' || c = 'e' || c = 'i' || c = 'o' || c = 'u' then false
        else if c = 'y' then
          match prev with
          | none => true
          | some p => !p
        else true
      f :: consFlagsAux (some f) cs

/-- Consonant flags of a word. -/
def consFlags (w : List Char) : List Bool := consFlagsAux none w

/-- Count of vowel-to-consonant transitions in a flag list. -/
def countVC : List Bool → Nat
  | [] => 0
  | [_] => 0
  | a :: b :: rest => (if !a && b then 1 else 0) + countVC (b :: rest)

/-- Porter's measure `m`: the word matches `[C](VC)^m[V]`. -/
def pm (w : List Char) : Nat := countVC (consFlags w)

/-- `*v*`: the stem contains a vowel. -/
def hasVowel (w : List Char) : Bool := (consFlags w).any (fun f => !f)

/-- `*d`: the stem ends with a double consonant. -/
def endsDoubleCons (w : List Char) : Bool :=
  match w.reverse, (consFlags w).reverse with
  | c1 :: c2 :: _, f1 :: _ => (c1 = c2) && f1
  | _, _ => false

/-- `*o`: the stem ends consonant-vowel-consonant where the final
consonant is not `w`, `x` or `y`. -/
def endsCVC (w : List Char) : Bool :=
  match w.reverse, (consFlags w).reverse with
  | c1 :: _ :: _ :: _, f1 :: f2 :: f3 :: _ =>
      f1 && !f2 && f3 && !(c1 = 'w' || c1 = 'x' || c1 = 'y')
  | _, _ => false

/-- Does `w` end with the suffix `suf`? -/
def endsW (w suf : List Char) : Bool := suf.isSuffixOf w

/-- Drop a suffix of length `n` from the end of `w`. -/
def dropEnd (w : List Char) (n : Nat) : List Char := w.take (w.length - n)

/-- One Porter rewrite rule: suffix, condition on the stem, replacement. -/
structure PRule where
  suf : List Char
  cond : List Char → Bool
  rep : List Char

/-- Apply the first rule whose suffix matches (rules are listed longest
suffix first); if its condition fails on the stem, the word is unchanged
and no further rule of the step is tried. -/
def applyRules (w : List Char) : List PRule → List Char
  | [] => w
  | r :: rs =>
      if endsW w r.suf then
        let stem := dropEnd w r.suf.length
        if r.cond stem then stem ++ r.rep else w
      else applyRules w rs

/-- The always-true rule condition. -/
def condTrue : List Char → Bool := fun _ => true

/-- Step 1a: plural stripping. -/
def step1a (w : List Char) : List Char :=
  applyRules w
    [⟨['s','s','e','s'], condTrue, ['s','s']⟩,
     ⟨['i','e','s'], condTrue, ['i']⟩,
     ⟨['s','s'], condTrue, ['s','s']⟩,
     ⟨['s'], condTrue, []⟩]

/-- Post-processing after `-ed`/`-ing` removal in step 1b. -/
def step1bPost (stem : List Char) : List Char :=
  if endsW stem ['a','t'] || endsW stem ['b','l'] || endsW stem ['i','z'] then
    stem ++ ['e']
  else if endsDoubleCons stem &&
      !(endsW stem ['l'] || endsW stem ['s'] || endsW stem ['z']) then
    dropEnd stem 1
  else if pm stem = 1 && endsCVC stem then stem ++ ['e']
  else stem

/-- Step 1b: `-eed`, `-ed`, `-ing`. -/
def step1b (w : List Char) : List Char :=
  if endsW w ['e','e','d'] then
    (if 0 < pm (dropEnd w 3) then dropEnd w 1 else w)
  else if endsW w ['e','d'] then
    (if hasVowel (dropEnd w 2) then step1bPost (dropEnd w 2) else w)
  else if endsW w ['i','n','g'] then
    (if hasVowel (dropEnd w 3) then step1bPost (dropEnd w 3) else w)
  else w

/-- Step 1c: `y` to `i` after a vowel-bearing stem. -/
def step1c (w : List Char) : List Char :=
  if endsW w ['y'] && hasVowel (dropEnd w 1) then dropEnd w 1 ++ ['i'] else w

/-- Condition `m(stem) > 0`. -/
def condM0 : List Char → Bool := fun st => 0 < pm st

/-- Condition `m(stem) > 1`. -/
def condM1 : List Char → Bool := fun st => 1 < pm st

/-- Step 2: double-suffix reduction (condition `m > 0`). -/
def step2 (w : List Char) : List Char :=
  applyRules w
    [⟨['a','t','i','o','n','a','l'], condM0, ['a','t','e']⟩,
     ⟨['i','z','a','t','i','o','n'], condM0, ['i','z','e']⟩,
     ⟨['i','v','e','n','e','s','s'], condM0, ['i','v','e']⟩,
     ⟨['f','u','l','n','e','s','s'], condM0, ['f','u','l']⟩,
     ⟨['o','u','s','n','e','s','s'], condM0, ['o','u','s']⟩,
     ⟨['t','i','o','n','a','l'], condM0, ['t','i','o','n']⟩,
     ⟨['b','i','l','i','t','i'], condM0, ['b','l','e']⟩,
     ⟨['e','n','t','l','i'], condM0, ['e','n','t']⟩,
     ⟨['o','u','s','l','i'], condM0, ['o','u','s']⟩,
     ⟨['a','t','i','o','n'], condM0, ['a','t','e']⟩,
     ⟨['a','l','i','s','m'], condM0, ['a','l']⟩,
     ⟨['a','l','i','t','i'], condM0, ['a','l']⟩,
     ⟨['i','v','i','t','i'], condM0, ['i','v','e']⟩,
     ⟨['e','n','c','i'], condM0, ['e','n','c','e']⟩,
     ⟨['a','n','c','i'], condM0, ['a','n','c','e']⟩,
     ⟨['i','z','e','r'], condM0, ['i','z','e']⟩,
     ⟨['a','b','l','i'], condM0, ['a','b','l','e']⟩,
     ⟨['a','l','l','i'], condM0, ['a','l']⟩,
     ⟨['a','t','o','r'], condM0, ['a','t','e']⟩,
     ⟨['e','l','i'], condM0, ['e']⟩]

/-- Step 3: `-icate`, `-ative`, ... (condition `m > 0`). -/
def step3 (w : List Char) : List Char :=
  applyRules w
    [⟨['i','c','a','t','e'], condM0, ['i','c']⟩,
     ⟨['a','t','i','v','e'], condM0, []⟩,
     ⟨['a','l','i','z','e'], condM0, ['a','l']⟩,
     ⟨['i','c','i','t','i'], condM0, ['i','c']⟩,
     ⟨['i','c','a','l'], condM0, ['i','c']⟩,
     ⟨['n','e','s','s'], condM0, []⟩,
     ⟨['f','u','l'], condM0, []⟩]

/-- Step 4: single-suffix deletion (condition `m > 1`; `-ion` additionally
requires the stem to end in `s` or `t`). -/
def step4 (w : List Char) : List Char :=
  applyRules w
    [⟨['e','m','e','n','t'], condM1, []⟩,
     ⟨['a','n','c','e'], condM1, []⟩,
     ⟨['e','n','c','e'], condM1, []⟩,
     ⟨['a','b','l','e'], condM1, []⟩,
     ⟨['i','b','l','e'], condM1, []⟩,
     ⟨['m','e','n','t'], condM1, []⟩,
     ⟨['a','n','t'], condM1, []⟩,
     ⟨['e','n','t'], condM1, []⟩,
     ⟨['i','o','n'],
       (fun st => condM1 st && (endsW st ['s'] || endsW st ['t'])), []⟩,
     ⟨['i','s','m'], condM1, []⟩,
     ⟨['a','t','e'], condM1, []⟩,
     ⟨['i','t','i'], condM1, []⟩,
     ⟨['o','u','s'], condM1, []⟩,
     ⟨['i','v','e'], condM1, []⟩,
     ⟨['i','z','e'], condM1, []⟩,
     ⟨['a','l'], condM1, []⟩,
     ⟨['e','r'], condM1, []⟩,
     ⟨['i','c'], condM1, []⟩,
     ⟨['o','u'], condM1, []⟩]

/-- Step 5a: final `-e` removal. -/
def step5a (w : List Char) : List Char :=
  if endsW w ['e'] then
    let stem := dropEnd w 1
    if 1 < pm stem then stem
    else if pm stem = 1 && !endsCVC stem then stem
    else w
  else w

/-- Step 5b: `-ll` to `-l` for long stems. -/
def step5b (w : List Char) : List Char :=
  if 1 < pm w && endsDoubleCons w && endsW w ['l'] then dropEnd w 1 else w

/-- All eight steps in order. -/
def stemCore (w : List Char) : List Char :=
  step5b (step5a (step4 (step3 (step2 (step1c (step1b (step1a w)))))))

end Porter

/-- Modelled from the spec: the Porter-style stemmer applied by the
tokenizer (the source delegates to `nltk.stem.PorterStemmer`, which is not
part of this repository).  Words of length at most two are returned
unchanged. -/
def porterStem (s : String) : String :=
  let w := s.toList
  if w.length ≤ 2 then s else String.mk (Porter.stemCore w)

/-! ## Materials (Python dicts of heterogeneous fields) -/

/-- A field value of a material document. -/
inductive MVal where
  | str (s : String) : MVal
  | fl (p : PF) : MVal
  | vec (v : List ℚ) : MVal
  | time (n : Nat) : MVal
deriving DecidableEq

/-- A material document: a Python dict of fields. -/
abbrev Material := DMap MVal

/-- `material.get(k, '')` for the string-valued fields the source reads. -/
def sget (m : Material) (k : String) : String :=
  match dget m k with
  | some (MVal.str s) => s
  | _ => ""

/-- `material.get(k)` as a vector of floats. -/
def vget (m : Material) (k : String) : List ℚ :=
  match dget m k with
  | some (MVal.vec v) => v
  | _ => []

/-- Python truthiness of an optional field value. -/
def mtruthy (v : Option MVal) : Bool :=
  match v with
  | none => false
  | some (MVal.str s) => s != ""
  | some (MVal.fl p) => !(p = PF.val 0)
  | some (MVal.vec l) => !l.isEmpty
  | some (MVal.time _) => true

/-- The searchable text `f"{title} {category} {description}"` used by
`KeywordSearchEngine.build` and by the semantic embedding paths. -/
def concat3 (m : Material) : String :=
  sget m "title" ++ " " ++ sget m "category" ++ " " ++ sget m "description"

/-- Remove the three embedding bookkeeping fields from a result record
(`material.pop('embedding', None)` and friends). -/
def popEmbFields (m : Material) : Material :=
  dremove (dremove (dremove m "embedding") "embedding_generated_at") "embedding_model"

/-! ## BM25 keyword engine (`keyword_search.KeywordSearchEngine`) -/

/-- BM25 parameter `k1 = 1.5`. -/
def BM25_K1 : ℚ := 3/2

/-- BM25 parameter `b = 0.75`. -/
def BM25_B : ℚ := 3/4

/-- The four maps owned by `KeywordSearchEngine`. -/
structure KWState where
  index : DMap (List String)
  docmap : DMap Material
  term_frequencies : DMap (DMap Nat)
  doc_lengths : DMap Nat
deriving DecidableEq

/-- The engine as constructed: all four maps empty. -/
def KWState.empty : KWState := ⟨[], [], [], []⟩

/-- Duplicate removal keeping first occurrences, standing in for the
(unobservable) iteration order of `set(tokens)`. -/
def dedupFirst (l : List String) : List String :=
  l.foldl (fun acc x => if x ∈ acc then acc else acc ++ [x]) []

/-- `Counter[token] += 1`. -/
def cinc (c : DMap Nat) (tok : String) : DMap Nat :=
  dinsert c tok (dgetD c tok 0 + 1)

/-- `Counter(tokens)`: the multiset of token counts. -/
def counterOf (tokens : List String) : DMap Nat :=
  tokens.foldl cinc []

/-- `_add_document(doc_id, text)`. -/
def addDocumentCore (stem : String → String) (st : KWState)
    (doc_id text : String) : KWState :=
  let tokens := tokenize_text stem text
  let dl := dinsert st.doc_lengths doc_id tokens.length
  let idx := (dedupFirst tokens).foldl
    (fun ix tok => dinsert ix tok (sadd (dgetD ix tok []) doc_id)) st.index
  let tf0 :=
    if dmem st.term_frequencies doc_id then st.term_frequencies
    else dinsert st.term_frequencies doc_id []
  let tf := tokens.foldl
    (fun m tok => dinsert m doc_id (cinc (dgetD m doc_id []) tok)) tf0
  ⟨idx, st.docmap, tf, dl⟩

/-- `_remove_document(doc_id)`: postings pruned, `tf` and `doc_len`
popped; `docmap` is not touched by this method. -/
def removeDocumentCore (st : KWState) (doc_id : String) : KWState :=
  let idx := st.index.filterMap (fun p =>
    if doc_id ∈ p.2 then
      let s := sdiscard p.2 doc_id
      if s.isEmpty then none else some (p.1, s)
    else some p)
  ⟨idx, st.docmap, dremove st.term_frequencies doc_id,
    dremove st.doc_lengths doc_id⟩

/-- `build()`: index every material, each under the concatenated
title/category/description text. -/
def buildKW (stem : String → String) (st : KWState)
    (materials : List Material) : KWState :=
  materials.foldl
    (fun s mat =>
      let doc_id := sget mat "_id"
      addDocumentCore stem
        { s with docmap := dinsert s.docmap doc_id mat } doc_id (concat3 mat))
    st

/-- Public `add_document(doc_id, text)`: fetches the material from the
database (`None` models the raised `ValueError`), refreshes `docmap`, then
indexes `text`. -/
def add_document (stem : String → String) (db : DMap Material)
    (st : KWState) (doc_id text : String) : Option KWState :=
  match dget db doc_id with
  | none => none
  | some material =>
      some (addDocumentCore stem
        { st with docmap := dinsert st.docmap doc_id material } doc_id text)

/-- Public `update_document(doc_id, text)`: fetch, refresh `docmap`,
remove the old postings, index `text`. -/
def update_document (stem : String → String) (db : DMap Material)
    (st : KWState) (doc_id text : String) : Option KWState :=
  match dget db doc_id with
  | none => none
  | some material =>
      let st1 := { st with docmap := dinsert st.docmap doc_id material }
      some (addDocumentCore stem (removeDocumentCore st1 doc_id) doc_id text)

/-- `_get_avg_doc_length()`. -/
def avgDocLength (st : KWState) : ℚ :=
  if st.doc_lengths.isEmpty then 0
  else (((dvals st.doc_lengths).sum : ℚ)) / (st.doc_lengths.length : ℚ)

/-- `get_bm25_idf(term)`, with `mlog` the model of `math.log`.  Note the
term is re-tokenized and only its first token is scored. -/
def get_bm25_idf (stem : String → String) (mlog : ℚ → ℚ) (st : KWState)
    (term : String) : ℚ :=
  match tokenize_text stem term with
  | [] => 0
  | processed :: _ =>
      let term_doc_count : Nat := (dgetD st.index processed []).length
      let doc_count : Nat := st.docmap.length
      mlog (((doc_count : ℚ) - (term_doc_count : ℚ) + 1/2) /
        ((term_doc_count : ℚ) + 1/2) + 1)

/-- `get_bm25_tf(doc_id, term)`; the term is re-tokenized here too. -/
def get_bm25_tf (stem : String → String) (st : KWState)
    (doc_id term : String) : ℚ :=
  match tokenize_text stem term with
  | [] => 0
  | processed :: _ =>
      let tf : Nat := dgetD (dgetD st.term_frequencies doc_id []) processed 0
      let doc_length : Nat := dgetD st.doc_lengths doc_id 0
      let avg := avgDocLength st
      let length_norm : ℚ :=
        if avg = 0 then 1 else 1 - BM25_B + BM25_B * ((doc_length : ℚ) / avg)
      ((tf : ℚ) * (BM25_K1 + 1)) / ((tf : ℚ) + BM25_K1 * length_norm)

/-- `bm25_score(doc_id, term)`. -/
def bm25_score (stem : String → String) (mlog : ℚ → ℚ) (st : KWState)
    (doc_id term : String) : ℚ :=
  get_bm25_tf stem st doc_id term * get_bm25_idf stem mlog st term

/-- The total score `search` accumulates for one candidate document. -/
def bm25TotalScore (stem : String → String) (mlog : ℚ → ℚ) (st : KWState)
    (qtokens : List String) (doc_id : String) : ℚ :=
  (qtokens.map (fun qt => bm25_score stem mlog st doc_id qt)).sum

/-- The `scores` dict of `search`, in `docmap` iteration order. -/
def kwSearchScores (stem : String → String) (mlog : ℚ → ℚ) (st : KWState)
    (qtokens : List String) (min_score : ℚ) : List (String × ℚ) :=
  (dkeys st.docmap).filterMap (fun doc_id =>
    let total := bm25TotalScore stem mlog st qtokens doc_id
    if min_score ≤ total then some (doc_id, total) else none)

/-- One returned record of `search`: a copy of the docmap entry with the
rounded score attached and the embedding fields popped. -/
def kwResultRecord (st : KWState) (p : String × ℚ) : Material :=
  popEmbFields (dinsert (dgetD st.docmap p.1 []) "bm25_score"
    (MVal.fl (PF.val (round4 p.2))))

/-- `KeywordSearchEngine.search(query, top_k, min_score)`. -/
def kwSearch (stem : String → String) (mlog : ℚ → ℚ) (st : KWState)
    (query : String) (top_k : Nat) (min_score : ℚ) : List Material :=
  if st.docmap.length = 0 then []
  else
    let qtokens := tokenize_text stem query
    if qtokens.isEmpty then []
    else
      let scores := kwSearchScores stem mlog st qtokens min_score
      let sorted :=
        (sortDesc (fun a b : String × ℚ => decide (b.2 ≤ a.2)) scores).take top_k
      sorted.map (kwResultRecord st)

/-- `search` threaded through the engine state: the method body assigns no
attribute of `self`, so the state it leaves behind is the state it was
given. -/
def kwSearchS (stem : String → String) (mlog : ℚ → ℚ) (st : KWState)
    (query : String) (top_k : Nat) (min_score : ℚ) :
    KWState × List Material :=
  (st, kwSearch stem mlog st query top_k min_score)

/-! ## Semantic engine (`search.SemanticSearchEngine`) -/

/-- The in-memory vector index: parallel materials list and embedding
matrix rows. -/
structure SemState where
  materials : List Material
  embeddings : List (List ℚ)
deriving DecidableEq

/-- Dot product of two rows (`np.dot`). -/
def dotQ (a b : List ℚ) : ℚ := (List.zipWith (fun x y => x * y) a b).sum

/-- Sum of squares of a row; the L2 norm is `msqrt` of this. -/
def sumsq (a : List ℚ) : ℚ := (a.map (fun x => x * x)).sum

/-- `_cosine_similarity(query_embedding)`: elementwise division of the
matrix-vector product by the product of norms, with `msqrt` the model of
`np.linalg.norm`'s square root.  A zero denominator yields the IEEE
special values, exactly as numpy produces them. -/
def semSimilarities (msqrt : ℚ → ℚ) (st : SemState) (qv : List ℚ) :
    List PF :=
  st.embeddings.map (fun row =>
    PF.fdiv (dotQ row qv) (msqrt (sumsq row) * msqrt (sumsq qv)))

/-- Total order used by `np.argsort` (ascending, `nan` sorted last). -/
def npLeB (p q : PF) : Bool :=
  match p, q with
  | PF.ninf, _ => true
  | _, PF.nan => true
  | PF.val x, PF.val y => decide (x ≤ y)
  | PF.val _, PF.pinf => true
  | PF.pinf, PF.pinf => true
  | _, _ => false

/-- `np.argsort(similarities)[::-1]`. -/
def argsortNp (sims : List PF) : List Nat :=
  (sortDesc (fun i j => npLeB (sims.getD i PF.nan) (sims.getD j PF.nan))
    (List.range sims.length)).reverse

/-- `SemanticSearchEngine.search(query, top_k, min_score)`, with `encode`
the opaque sentence-transformer and `msqrt` the float square root. -/
def semSearch (encode : String → List ℚ) (msqrt : ℚ → ℚ) (st : SemState)
    (query : String) (top_k : Nat) (min_score : ℚ) : List Material :=
  if st.materials.length = 0 then []
  else
    let qv := encode query
    let sims := semSimilarities msqrt st qv
    let top_idx := (argsortNp sims).take top_k
    top_idx.filterMap (fun idx =>
      let score := sims.getD idx PF.nan
      if PF.geQ score min_score then
        some (popEmbFields (dinsert (st.materials.getD idx []) "score"
          (MVal.fl (PF.round4F score))))
      else none)

/-- The error vocabulary the spec assigns to the vector index.  The Python
method body contains no `raise` at all, so the embedding always returns
`Except.ok`; the wrapper exists to make "fails with InvalidQuery"
statable. -/
inductive SemErr where
  | invalidQuery : SemErr
deriving DecidableEq

/-- `search` with its (never-exercised) error channel. -/
def semSearchE (encode : String → List ℚ) (msqrt : ℚ → ℚ) (st : SemState)
    (query : String) (top_k : Nat) (min_score : ℚ) :
    Except SemErr (List Material) :=
  Except.ok (semSearch encode msqrt st query top_k min_score)

/-- `search` threaded through the engine state: the method assigns no
attribute of `self`. -/
def semSearchS (encode : String → List ℚ) (msqrt : ℚ → ℚ) (st : SemState)
    (query : String) (top_k : Nat) (min_score : ℚ) :
    SemState × List Material :=
  (st, semSearch encode msqrt st query top_k min_score)

/-! ## Ingestion: database, `add_material` / `update_material`, webhooks -/

/-- The whole system: the Mongo collection (keyed by stringified id,
`bm25_index` entry excluded), the vector index and the BM25 index. -/
structure SysState where
  db : DMap Material
  sem : SemState
  kw : KWState
deriving DecidableEq

/-- `db_manager.update_embedding(id, emb)`: sets only the `embedding`
field on the stored document. -/
def dbUpdateEmbedding (db : DMap Material) (product_id : String)
    (emb : List ℚ) : DMap Material :=
  match dget db product_id with
  | none => db
  | some material =>
      dinsert db product_id (dinsert material "embedding" (MVal.vec emb))

/-- `SemanticSearchEngine.add_material(product_id)`; `now` and
`model_name` stand for `datetime.utcnow()` and the configured model. -/
def add_material (encode : String → List ℚ) (now : Nat)
    (model_name : String) (s : SysState) (product_id : String) :
    Bool × SysState :=
  match dget s.db product_id with
  | none => (false, s)
  | some material =>
      if mtruthy (dget material "embedding") then
        if s.sem.materials.any (fun m => sget m "_id" = product_id) then
          (true, s)
        else
          (true, { s with sem :=
            ⟨s.sem.materials ++ [material],
             s.sem.embeddings ++ [vget material "embedding"]⟩ })
      else
        let emb := encode (concat3 material)
        let material1 :=
          dinsert (dinsert (dinsert material "embedding" (MVal.vec emb))
            "embedding_generated_at" (MVal.time now))
            "embedding_model" (MVal.str model_name)
        (true, { s with
          db := dbUpdateEmbedding s.db product_id emb,
          sem := ⟨s.sem.materials ++ [material1],
                  s.sem.embeddings ++ [emb]⟩ })

/-- `SemanticSearchEngine.update_material(product_id)`. -/
def update_material (encode : String → List ℚ) (now : Nat)
    (model_name : String) (s : SysState) (product_id : String) :
    Bool × SysState :=
  match dget s.db product_id with
  | none => (false, s)
  | some material =>
      let emb := encode (concat3 material)
      let material1 :=
        dinsert (dinsert (dinsert material "embedding" (MVal.vec emb))
          "embedding_generated_at" (MVal.time now))
          "embedding_model" (MVal.str model_name)
      let db1 := dbUpdateEmbedding s.db product_id emb
      match s.sem.materials.findIdx? (fun m => sget m "_id" = product_id) with
      | some idx =>
          (true, { s with db := db1, sem :=
            ⟨s.sem.materials.set idx material1,
             s.sem.embeddings.set idx emb⟩ })
      | none =>
          (true, { s with db := db1, sem :=
            ⟨s.sem.materials ++ [material1], s.sem.embeddings ++ [emb]⟩ })

/-- HTTP-level outcomes of the webhook handlers in `app/main.py`. -/
inductive HErr where
  | notFound : HErr
  | alreadyIndexed : HErr
  | notIndexed : HErr
  | noTitle : HErr
  | semFailed : HErr
  | kwFailed : HErr
deriving DecidableEq

/-- `webhook_product_added` (`app/main.py`): reject when the stored
product already carries an `embedding` key; otherwise run the semantic
`add_material` and then the BM25 `add_document` — the latter is handed
only the product's `title`. -/
def webhookAdd (stem : String → String) (encode : String → List ℚ)
    (now : Nat) (model_name : String) (s : SysState)
    (product_id : String) : SysState × Option HErr :=
  match dget s.db product_id with
  | none => (s, some HErr.notFound)
  | some product =>
      if dmem product "embedding" then (s, some HErr.alreadyIndexed)
      else
        let title := sget product "title"
        if title = "" then (s, some HErr.noTitle)
        else
          let r := add_material encode now model_name s product_id
          if !r.1 then (r.2, some HErr.semFailed)
          else
            match dget r.2.db product_id with
            | none => (r.2, some HErr.kwFailed)
            | some material =>
                let kw1 := addDocumentCore stem
                  { r.2.kw with docmap := dinsert r.2.kw.docmap product_id material }
                  product_id title
                ({ r.2 with kw := kw1 }, none)

/-- `webhook_product_updated` (`app/main.py`): requires the stored product
to carry an `embedding` key; runs the semantic `update_material` and then
the BM25 `update_document` with only the `title` as text. -/
def webhookUpdate (stem : String → String) (encode : String → List ℚ)
    (now : Nat) (model_name : String) (s : SysState)
    (product_id : String) : SysState × Option HErr :=
  match dget s.db product_id with
  | none => (s, some HErr.notFound)
  | some product =>
      if !(dmem product "embedding") then (s, some HErr.notIndexed)
      else
        let title := sget product "title"
        if title = "" then (s, some HErr.noTitle)
        else
          let r := update_material encode now model_name s product_id
          if !r.1 then (r.2, some HErr.semFailed)
          else
            match dget r.2.db product_id with
            | none => (r.2, some HErr.kwFailed)
            | some material =>
                let st1 := { r.2.kw with
                  docmap := dinsert r.2.kw.docmap product_id material }
                let kw1 := addDocumentCore stem
                  (removeDocumentCore st1 product_id) product_id title
                ({ r.2 with kw := kw1 }, none)

/-! ## Hybrid ranker (`hybrid_search.HybridSearchEngine`) -/

/-- `r.get(key, 0.0)` for the float score fields of result records. -/
def getPF (m : Material) (k : String) : PF :=
  match dget m k with
  | some (MVal.fl p) => p
  | _ => PF.val 0

/-- The score dict `{r['_id']: r.get(key, 0.0) for r in results}`. -/
def scoreDict (results : List Material) (key : String) : DMap PF :=
  results.foldl (fun m r => dinsert m (sget r "_id") (getPF r key)) []

/-- `max(scores.values()) if scores else 1.0`. -/
def pyMaxD (vs : List PF) (d : ℚ) : PF :=
  match vs with
  | [] => PF.val d
  | v :: rest => PF.pmaxL v rest

/-- `min(scores.values()) if scores else 0.0`. -/
def pyMinD (vs : List PF) (d : ℚ) : PF :=
  match vs with
  | [] => PF.val d
  | v :: rest => PF.pminL v rest

/-- The min-max normalization block of `_combine_results` for one score
dict: divide by the spread when it is positive, else all zeros. -/
def normalizeScores (scores : DMap PF) : DMap PF :=
  let mx := pyMaxD (dvals scores) 1
  let mn := pyMinD (dvals scores) 0
  if PF.gtB (PF.sub mx mn) (PF.val 0) then
    scores.map (fun p => (p.1, PF.div (PF.sub p.2 mn) (PF.sub mx mn)))
  else scores.map (fun p => (p.1, PF.val 0))

/-- The exact (pre-rounding) combined score `_combine_results` computes
for one doc id. -/
def combinedScoreOf (semR kwR : List Material) (wsem wkw : ℚ)
    (doc_id : String) : PF :=
  let nsem := dgetD (normalizeScores (scoreDict semR "score")) doc_id (PF.val 0)
  let nkw := dgetD (normalizeScores (scoreDict kwR "bm25_score")) doc_id (PF.val 0)
  PF.add (PF.mul (PF.val wsem) nsem) (PF.mul (PF.val wkw) nkw)

/-- The `materials_lookup` dict of `_combine_results`. -/
def materialsLookup (semR kwR : List Material) : DMap Material :=
  (semR ++ kwR).foldl (fun m r => dinsert m (sget r "_id") r) []

/-- The record `_combine_results` builds for one doc id: a copy of the
looked-up sub-result with the three rounded score fields attached and the
raw score and embedding fields popped. -/
def combineRecord (semR kwR : List Material) (wsem wkw : ℚ)
    (doc_id : String) : Material :=
  let combined_score := combinedScoreOf semR kwR wsem wkw doc_id
  let material := dgetD (materialsLookup semR kwR) doc_id []
  let m1 := dinsert material "semantic_score"
    (MVal.fl (PF.round4F (dgetD (scoreDict semR "score") doc_id (PF.val 0))))
  let m2 := dinsert m1 "keyword_score"
    (MVal.fl (PF.round4F (dgetD (scoreDict kwR "bm25_score") doc_id
      (PF.val 0))))
  let m3 := dinsert m2 "combined_score" (MVal.fl (PF.round4F combined_score))
  dremove (dremove (dremove (dremove (dremove m3 "score") "bm25_score")
    "embedding") "embedding_generated_at") "embedding_model"

/-- `_combine_results(semantic_results, keyword_results, w_sem, w_kw)`.
`enum` is the iteration order of the Python set
`set(semantic_scores) | set(keyword_scores)`, which CPython leaves
unspecified; it enters the model as an explicit parameter. -/
def combineResults (semR kwR : List Material) (wsem wkw : ℚ)
    (enum : List String) : DMap Material :=
  enum.map (fun doc_id =>
    (doc_id, combineRecord semR kwR wsem wkw doc_id))

/-- The filter-sort-trim tail of `HybridSearchEngine.search` (lines
66-78): both the `min_score` filter and the descending sort read the
record's stored `combined_score` field, which holds the rounded value. -/
def hybridRank (semR kwR : List Material) (wsem wkw : ℚ)
    (enum : List String) (min_score : ℚ) (top_k : Nat) : List Material :=
  let combined := combineResults semR kwR wsem wkw enum
  let filtered := (dvals combined).filter
    (fun item => PF.geQ (getPF item "combined_score") min_score)
  (sortDesc (fun x y => PF.geB (getPF x "combined_score")
    (getPF y "combined_score")) filtered).take top_k

/-- `HybridSearchEngine.search`, threaded through both engine states,
which it only reads. -/
def hybridSearchS (stem : String → String) (mlog : ℚ → ℚ)
    (encode : String → List ℚ) (msqrt : ℚ → ℚ) (sem : SemState)
    (kw : KWState) (query : String) (top_k : Nat) (min_score : ℚ)
    (wsem wkw : ℚ) (enum : List String) :
    (SemState × KWState) × List Material :=
  let fetch_count := min (top_k * 3) 50
  let semR := semSearch encode msqrt sem query fetch_count 0
  let kwR := kwSearch stem mlog kw query fetch_count 0
  ((sem, kw), hybridRank semR kwR wsem wkw enum min_score top_k)

/-! ## Dictionary lemmas -/

theorem dget_dinsert_self {α : Type} (m : DMap α) (k : String) (v : α) :
    dget (dinsert m k v) k = some v := by
  induction m with
  | nil => simp [dinsert, dget]
  | cons p rest ih =>
      obtain ⟨a, b⟩ := p
      by_cases h : a = k
      · simp [dinsert, dget, h]
      · simp [dinsert, dget, h, ih]

theorem dget_dinsert_ne {α : Type} (m : DMap α) (k : String) (v : α)
    (k' : String) (h : k' ≠ k) : dget (dinsert m k v) k' = dget m k' := by
  induction m with
  | nil => simp [dinsert, dget, Ne.symm h]
  | cons p rest ih =>
      obtain ⟨a, b⟩ := p
      by_cases hp : a = k
      · subst hp
        simp [dinsert, dget, Ne.symm h]
      · by_cases hq : a = k'
        · subst hq
          simp [dinsert, dget, hp, h]
        · simp [dinsert, dget, hp, hq, ih]

theorem dinsert_eq_of_dget {α : Type} (m : DMap α) (k : String) (v : α)
    (h : dget m k = some v) : dinsert m k v = m := by
  induction m with
  | nil => simp [dget] at h
  | cons p rest ih =>
      obtain ⟨a, b⟩ := p
      by_cases hp : a = k
      · simp only [dget, hp, if_pos] at h
        obtain rfl : b = v := by exact Option.some_injective _ h
        simp [dinsert, hp]
      · simp only [dget, hp, if_false] at h
        simp [dinsert, hp, ih h]

theorem dget_dremove_self {α : Type} (m : DMap α) (k : String) :
    dget (dremove m k) k = none := by
  induction m with
  | nil => simp [dremove, dget]
  | cons p rest ih =>
      obtain ⟨a, b⟩ := p
      by_cases hp : a = k
      · simpa [dremove, dget, hp] using ih
      · simpa [dremove, dget, hp] using ih

theorem dget_dremove_ne {α : Type} (m : DMap α) (k k' : String)
    (h : k' ≠ k) : dget (dremove m k) k' = dget m k' := by
  induction m with
  | nil => simp [dremove, dget]
  | cons p rest ih =>
      obtain ⟨a, b⟩ := p
      by_cases hp : a = k
      · subst hp
        simpa [dremove, dget, Ne.symm h] using ih
      · by_cases hq : a = k'
        · subst hq
          simp [dremove, dget, hp, List.filter_cons]
        · simpa [dremove, dget, hp, hq] using ih

/-- Map a function over the values of a dictionary. -/
def dmapv {α β : Type} (f : α → β) (m : DMap α) : DMap β :=
  m.map (fun p => (p.1, f p.2))

theorem dget_dmapv {α β : Type} (f : α → β) (m : DMap α) (k : String) :
    dget (dmapv f m) k = (dget m k).map f := by
  induction m with
  | nil => simp [dmapv, dget]
  | cons p rest ih =>
      obtain ⟨a, b⟩ := p
      by_cases hp : a = k
      · simp [dmapv, dget, hp]
      · simpa [dmapv, dget, hp] using ih

theorem dvals_dmapv {α β : Type} (f : α → β) (m : DMap α) :
    dvals (dmapv f m) = (dvals m).map f := by
  induction m with
  | nil => simp [dmapv, dvals]
  | cons p rest ih => simp [dmapv, dvals, ih]

theorem dget_popEmbFields_embedding (m : Material) :
    dget (popEmbFields m) "embedding" = none := by
  unfold popEmbFields
  rw [dget_dremove_ne _ _ _ (by decide), dget_dremove_ne _ _ _ (by decide)]
  exact dget_dremove_self m "embedding"

theorem dget_popEmbFields_generated (m : Material) :
    dget (popEmbFields m) "embedding_generated_at" = none := by
  unfold popEmbFields
  rw [dget_dremove_ne _ _ _ (by decide)]
  exact dget_dremove_self _ _

theorem dget_popEmbFields_model (m : Material) :
    dget (popEmbFields m) "embedding_model" = none :=
  dget_dremove_self _ _

theorem dget_popEmbFields_other (m : Material) (k : String)
    (h1 : k ≠ "embedding") (h2 : k ≠ "embedding_generated_at")
    (h3 : k ≠ "embedding_model") : dget (popEmbFields m) k = dget m k := by
  unfold popEmbFields
  rw [dget_dremove_ne _ _ _ h3, dget_dremove_ne _ _ _ h2,
    dget_dremove_ne _ _ _ h1]

/-! ## Counter lemmas -/

/-- Total count stored in a counter. -/
def sumC (c : DMap Nat) : Nat := (dvals c).sum

theorem sumC_dinsert (c : DMap Nat) (k : String) (v : Nat) :
    sumC (dinsert c k v) + dgetD c k 0 = sumC c + v := by
  induction c with
  | nil => simp [dinsert, sumC, dvals, dgetD, dget]
  | cons p rest ih =>
      obtain ⟨a, b⟩ := p
      by_cases hp : a = k
      · simp [dinsert, hp, sumC, dvals, dgetD, dget]
        omega
      · simp only [dinsert, hp, if_false, sumC, dvals, List.map_cons,
          List.sum_cons, dgetD, dget]
        simp only [sumC, dvals, dgetD] at ih
        omega

theorem sumC_cinc (c : DMap Nat) (tok : String) :
    sumC (cinc c tok) = sumC c + 1 := by
  have h := sumC_dinsert c tok (dgetD c tok 0 + 1)
  unfold cinc
  omega

theorem sumC_foldl_cinc (tokens : List String) (c : DMap Nat) :
    sumC (tokens.foldl cinc c) = sumC c + tokens.length := by
  induction tokens generalizing c with
  | nil => simp
  | cons t ts ih =>
      simp only [List.foldl_cons, ih, sumC_cinc, List.length_cons]
      omega

theorem sumC_counterOf (tokens : List String) :
    sumC (counterOf tokens) = tokens.length := by
  unfold counterOf
  simpa [sumC, dvals] using sumC_foldl_cinc tokens []

theorem dgetD_cinc_self (c : DMap Nat) (tok : String) :
    dgetD (cinc c tok) tok 0 = dgetD c tok 0 + 1 := by
  unfold cinc dgetD
  rw [dget_dinsert_self]
  rfl

theorem dgetD_cinc_ne (c : DMap Nat) (tok tok' : String) (h : tok' ≠ tok) :
    dgetD (cinc c tok) tok' 0 = dgetD c tok' 0 := by
  unfold cinc dgetD
  rw [dget_dinsert_ne _ _ _ _ h]

theorem dgetD_foldl_cinc (tokens : List String) (c : DMap Nat)
    (tok : String) :
    dgetD (tokens.foldl cinc c) tok 0 = dgetD c tok 0 + tokens.count tok := by
  induction tokens generalizing c with
  | nil => simp
  | cons t ts ih =>
      by_cases h : tok = t
      · subst h
        rw [List.foldl_cons, ih, dgetD_cinc_self, List.count_cons_self]
        omega
      · rw [List.foldl_cons, ih, dgetD_cinc_ne c t tok h,
          List.count_cons_of_ne h]

theorem dgetD_counterOf (tokens : List String) (tok : String) :
    dgetD (counterOf tokens) tok 0 = tokens.count tok := by
  unfold counterOf
  simpa [dgetD, dget] using dgetD_foldl_cinc tokens [] tok

/-! ## Structure of `_add_document` and `_remove_document` -/

theorem addDocumentCore_docmap (stem : String → String) (st : KWState)
    (did text : String) :
    (addDocumentCore stem st did text).docmap = st.docmap := rfl

theorem tfFold_self (tokens : List String) (m : DMap (DMap Nat))
    (did : String) (c : DMap Nat) (h : dget m did = some c) :
    dget (tokens.foldl
      (fun m tok => dinsert m did (cinc (dgetD m did []) tok)) m) did =
      some (tokens.foldl cinc c) := by
  induction tokens generalizing m c with
  | nil => simpa using h
  | cons t ts ih =>
      simp only [List.foldl_cons]
      apply ih
      rw [dget_dinsert_self]
      unfold dgetD
      rw [h]
      rfl

theorem tfFold_ne (tokens : List String) (m : DMap (DMap Nat))
    (did d' : String) (h : d' ≠ did) :
    dget (tokens.foldl
      (fun m tok => dinsert m did (cinc (dgetD m did []) tok)) m) d' =
      dget m d' := by
  induction tokens generalizing m with
  | nil => rfl
  | cons t ts ih =>
      simp only [List.foldl_cons]
      rw [ih, dget_dinsert_ne _ _ _ _ h]

theorem addDocumentCore_tf_fresh (stem : String → String) (st : KWState)
    (did text : String) (h : dmem st.term_frequencies did = false) :
    dget (addDocumentCore stem st did text).term_frequencies did =
      some (counterOf (tokenize_text stem text)) := by
  unfold addDocumentCore
  simp only [h, Bool.false_eq_true, if_false]
  exact tfFold_self _ _ _ _ (dget_dinsert_self _ _ _)

theorem addDocumentCore_tf_existing (stem : String → String) (st : KWState)
    (did text : String) (c : DMap Nat)
    (h : dget st.term_frequencies did = some c) :
    dget (addDocumentCore stem st did text).term_frequencies did =
      some ((tokenize_text stem text).foldl cinc c) := by
  unfold addDocumentCore
  have hm : dmem st.term_frequencies did = true := by
    unfold dmem
    rw [h]
    rfl
  simp only [hm, if_true]
  exact tfFold_self _ _ _ _ h

theorem addDocumentCore_tf_ne (stem : String → String) (st : KWState)
    (did text d' : String) (h : d' ≠ did) :
    dget (addDocumentCore stem st did text).term_frequencies d' =
      dget st.term_frequencies d' := by
  unfold addDocumentCore
  by_cases hm : dmem st.term_frequencies did = true
  · simp only [hm, if_true]
    exact tfFold_ne _ _ _ _ h
  · simp only [Bool.not_eq_true] at hm
    simp only [hm, Bool.false_eq_true, if_false]
    rw [tfFold_ne _ _ _ _ h, dget_dinsert_ne _ _ _ _ h]

theorem addDocumentCore_dl (stem : String → String) (st : KWState)
    (did text : String) :
    (addDocumentCore stem st did text).doc_lengths =
      dinsert st.doc_lengths did (tokenize_text stem text).length := rfl

theorem removeDocumentCore_docmap (st : KWState) (did : String) :
    (removeDocumentCore st did).docmap = st.docmap := rfl

theorem removeDocumentCore_tf (st : KWState) (did : String) :
    (removeDocumentCore st did).term_frequencies =
      dremove st.term_frequencies did := rfl

theorem removeDocumentCore_dl (st : KWState) (did : String) :
    (removeDocumentCore st did).doc_lengths =
      dremove st.doc_lengths did := rfl

theorem mem_sadd (s : List String) (x : String) : x ∈ sadd s x := by
  unfold sadd
  by_cases h : x ∈ s
  · simp only [h, if_true]
  · simp [h]

theorem idxFold_noop (L : List String) (ix : DMap (List String))
    (did : String) (h : ∀ tok ∈ L, did ∈ dgetD ix tok []) :
    L.foldl (fun ix tok => dinsert ix tok (sadd (dgetD ix tok []) did)) ix
      = ix := by
  induction L with
  | nil => rfl
  | cons t ts ih =>
      have ht := h t (by simp)
      have hs : sadd (dgetD ix t []) did = dgetD ix t [] := by
        unfold sadd
        simp [ht]
      have hget : dget ix t = some (dgetD ix t []) := by
        unfold dgetD at ht ⊢
        cases hg : dget ix t with
        | none => rw [hg] at ht; simp at ht
        | some s => rfl
      simp only [List.foldl_cons, hs, dinsert_eq_of_dget _ _ _ hget]
      exact ih (fun tok htok => h tok (by simp [htok]))

theorem idxFold_other (L : List String) (ix : DMap (List String))
    (did tok : String) (h : tok ∉ L) :
    dget (L.foldl
      (fun ix t => dinsert ix t (sadd (dgetD ix t []) did)) ix) tok =
      dget ix tok := by
  induction L generalizing ix with
  | nil => rfl
  | cons t ts ih =>
      simp only [List.foldl_cons]
      rw [ih _ (fun hm => h (by simp [hm])),
        dget_dinsert_ne _ _ _ _ (fun he => h (by simp [he]))]

theorem idxFold_mem (L : List String) (ix : DMap (List String))
    (did : String) (hnd : L.Nodup) :
    ∀ tok ∈ L,
      did ∈ dgetD
        (L.foldl (fun ix t => dinsert ix t (sadd (dgetD ix t []) did)) ix)
        tok [] := by
  induction L generalizing ix with
  | nil => intro tok htok; simp at htok
  | cons t ts ih =>
      intro tok htok
      have hnd' := List.nodup_cons.mp hnd
      simp only [List.foldl_cons]
      rcases List.mem_cons.mp htok with rfl | hmem
      · rw [show dgetD (ts.foldl
            (fun ix t => dinsert ix t (sadd (dgetD ix t []) did))
            (dinsert ix tok (sadd (dgetD ix tok []) did))) tok [] = _ from
            congrArg (fun o => Option.getD o []) (idxFold_other ts _ did tok hnd'.1)]
        unfold dgetD
        rw [dget_dinsert_self]
        exact mem_sadd _ _
      · exact ih _ hnd'.2 tok hmem

theorem dedupFirst_mem (l : List String) (x : String) :
    x ∈ dedupFirst l ↔ x ∈ l := by
  have key : ∀ acc, x ∈ l.foldl
      (fun acc y => if y ∈ acc then acc else acc ++ [y]) acc ↔
      x ∈ acc ∨ x ∈ l := by
    induction l with
    | nil => intro acc; simp
    | cons y ys ih =>
        intro acc
        by_cases hy : y ∈ acc
        · rw [List.foldl_cons, if_pos hy, ih]
          constructor
          · rintro (h | h)
            · exact Or.inl h
            · exact Or.inr (by simp [h])
          · rintro (h | h)
            · exact Or.inl h
            · rcases List.mem_cons.mp h with rfl | h2
              · exact Or.inl hy
              · exact Or.inr h2
        · rw [List.foldl_cons, if_neg hy, ih]
          constructor
          · rintro (h | h)
            · rcases List.mem_append.mp h with h1 | h1
              · exact Or.inl h1
              · have hx : x = y := List.mem_singleton.mp h1
                subst hx
                exact Or.inr (by simp)
            · exact Or.inr (by simp [h])
          · rintro (h | h)
            · exact Or.inl (by simp [h])
            · rcases List.mem_cons.mp h with rfl | h2
              · exact Or.inl (by simp)
              · exact Or.inr h2
  unfold dedupFirst
  rw [key []]
  simp

theorem dedupFirst_nodup (l : List String) : (dedupFirst l).Nodup := by
  have key : ∀ acc, acc.Nodup → (l.foldl
      (fun acc y => if y ∈ acc then acc else acc ++ [y]) acc).Nodup := by
    induction l with
    | nil => intro acc h; simpa using h
    | cons y ys ih =>
        intro acc h
        by_cases hy : y ∈ acc
        · rw [List.foldl_cons, if_pos hy]
          exact ih _ h
        · rw [List.foldl_cons, if_neg hy]
          exact ih _ (by simp [List.nodup_append, h, hy])
  exact key [] List.nodup_nil

/-! ## Claim C1: the BM25 scoring formula -/

/-- The spec's IDF formula
`IDF(t) = ln((N - df(t) + 0.5) / (df(t) + 0.5) + 1)`, with `df` read off
the postings and `N` the docmap size, for the token `t` itself. -/
def specIDF (mlog : ℚ → ℚ) (st : KWState) (t : String) : ℚ :=
  let dft : Nat := (dgetD st.index t []).length
  let N : Nat := st.docmap.length
  mlog (((N : ℚ) - (dft : ℚ) + 1/2) / ((dft : ℚ) + 1/2) + 1)

/-- The spec's TF normalization
`TF_norm(t, d) = f(t,d)(k1+1) / (f(t,d) + k1(1 - b + b|d|/avgdl))` for the
token `t` itself. -/
def specTFnorm (st : KWState) (t d : String) : ℚ :=
  let f : Nat := dgetD (dgetD st.term_frequencies d []) t 0
  let dl : Nat := dgetD st.doc_lengths d 0
  ((f : ℚ) * (BM25_K1 + 1)) /
    ((f : ℚ) + BM25_K1 * (1 - BM25_B + BM25_B * ((dl : ℚ) / avgDocLength st)))

/-- The claim's score formula:
`score(q, d) = sum over t in tokenize(q) of IDF(t) TF_norm(t, d)`. -/
def specBM25Score (stem : String → String) (mlog : ℚ → ℚ) (st : KWState)
    (q d : String) : ℚ :=
  ((tokenize_text stem q).map (fun t => specIDF mlog st t * specTFnorm st t d)).sum

/-- Stand-in for `math.log` in concrete runs; like the real logarithm it
vanishes exactly at 1, which is all the concrete theorems rely on. -/
def mlogLin : ℚ → ℚ := fun x => x - 1

/-- A one-document corpus whose title stems to the stopword `will`. -/
def matW : Material := [("_id", MVal.str "d1"), ("title", MVal.str "wills")]

/-- The BM25 state after `build()` over that corpus. -/
def stW : KWState := buildKW porterStem KWState.empty [matW]

/-- Claim C1 as stated is false: on the corpus holding the single document
"wills" (indexed under the stem `will`), the query "wills" is scored 0 by
the engine, because `get_bm25_idf`/`get_bm25_tf` re-tokenize the already
stemmed query token and `will` is a stopword; the claim's formula instead
gives `ln((1-1+0.5)/(1+0.5)+1) = ln(4/3) ≠ 0` times a TF factor of 1 (here
evaluated with the stand-in logarithm, which is likewise nonzero at 4/3). -/
theorem C1_counterexample :
    "d1" ∈ dkeys stW.docmap ∧
    bm25TotalScore porterStem mlogLin stW
      (tokenize_text porterStem "wills") "d1" = 0 ∧
    specBM25Score porterStem mlogLin stW "wills" "d1" = 1/3 ∧
    bm25TotalScore porterStem mlogLin stW
      (tokenize_text porterStem "wills") "d1" ≠
      specBM25Score porterStem mlogLin stW "wills" "d1" := by
  with_unfolding_all decide

theorem bm25_score_formula (stem : String → String) (mlog : ℚ → ℚ)
    (st : KWState) (d t : String) (havg : avgDocLength st ≠ 0) :
    bm25_score stem mlog st d t =
      (match tokenize_text stem t with
       | [] => 0
       | t' :: _ => specIDF mlog st t' * specTFnorm st t' d) := by
  unfold bm25_score get_bm25_tf get_bm25_idf specIDF specTFnorm
  cases h : tokenize_text stem t with
  | nil => simp
  | cons t' rest =>
      simp only [havg, if_false]
      ring

/-- Claim C1, amended: the score the search loop computes for an indexed
document equals the claimed sum, except that each query token `t` is first
re-tokenized (`get_bm25_idf`/`get_bm25_tf` call `tokenize_text` again):
a token whose re-tokenization is empty (a stem in the stopword list)
contributes 0, and otherwise the first token of the re-tokenization is
what is looked up; stated for query-time states whose average document
length is nonzero (when it is zero the code replaces the length
normalization by 1). -/
theorem C1_amended (stem : String → String) (mlog : ℚ → ℚ) (st : KWState)
    (q d : String) (hd : d ∈ dkeys st.docmap)
    (havg : avgDocLength st ≠ 0) :
    bm25TotalScore stem mlog st (tokenize_text stem q) d =
      ((tokenize_text stem q).map (fun t =>
        match tokenize_text stem t with
        | [] => 0
        | t' :: _ => specIDF mlog st t' * specTFnorm st t' d)).sum := by
  unfold bm25TotalScore
  have hf : (fun t => bm25_score stem mlog st d t) =
      (fun t =>
        match tokenize_text stem t with
        | [] => 0
        | t' :: _ => specIDF mlog st t' * specTFnorm st t' d) :=
    funext (fun t => bm25_score_formula stem mlog st d t havg)
  rw [hf]

/-- Witness for `C1_amended` at the concrete corpus and query above. -/
theorem C1_witness :
    ("d1" ∈ dkeys stW.docmap ∧ avgDocLength stW ≠ 0) ∧
      bm25TotalScore porterStem mlogLin stW
        (tokenize_text porterStem "wills") "d1" =
        ((tokenize_text porterStem "wills").map (fun t =>
          match tokenize_text porterStem t with
          | [] => 0
          | t' :: _ => specIDF mlogLin stW t' * specTFnorm stW t' "d1")).sum :=
  ⟨⟨by with_unfolding_all decide, by with_unfolding_all decide⟩,
    C1_amended porterStem mlogLin stW "wills" "d1"
      (by with_unfolding_all decide) (by with_unfolding_all decide)⟩

/-! ## Claim C2: the candidate set of BM25 search -/

/-- A one-document corpus with title "steel". -/
def matS : Material := [("_id", MVal.str "d1"), ("title", MVal.str "steel")]

/-- The BM25 state after `build()` over that corpus. -/
def stS : KWState := buildKW porterStem KWState.empty [matS]

/-- Claim C2 as stated is false: `search` iterates over all of `docmap`
rather than the postings union, and with `min_score = 0` the document
"steel" is returned for the query "cement" with score 0, although it
contains no query token (its id is in no query token's postings and all
its term frequencies for the query tokens are 0). -/
theorem C2_counterexample :
    ((kwSearch porterStem mlogLin stS "cement" 5 0).map
      (fun r => sget r "_id")) = ["d1"] ∧
    (∀ t ∈ tokenize_text porterStem "cement",
      "d1" ∉ dgetD stS.index t []) ∧
    (∀ t ∈ tokenize_text porterStem "cement",
      dgetD (dgetD stS.term_frequencies "d1" []) t 0 = 0) := by
  with_unfolding_all decide

theorem bm25_score_of_no_hit (stem : String → String) (mlog : ℚ → ℚ)
    (st : KWState) (d t : String)
    (h : ∀ t' ∈ (tokenize_text stem t).take 1,
      dgetD (dgetD st.term_frequencies d []) t' 0 = 0) :
    bm25_score stem mlog st d t = 0 := by
  unfold bm25_score get_bm25_tf
  cases ht : tokenize_text stem t with
  | nil => simp
  | cons t' rest =>
      have h0 : dgetD (dgetD st.term_frequencies d []) t' 0 = 0 := by
        apply h
        rw [ht]
        simp
      simp [h0]

/-- Claim C2, amended: the candidate loop runs over every document in
`docmap` (not the postings union), and a document with no query-term hit
scores exactly 0; hence whenever `min_score` is positive every returned
record corresponds to a scored document that has a positive term count
for (the re-tokenization of) at least one query token.  With
`min_score = 0` such zero-score documents can be returned. -/
theorem C2_amended (stem : String → String) (mlog : ℚ → ℚ) (st : KWState)
    (q : String) (top_k : Nat) (ms : ℚ) (hms : 0 < ms) :
    ∀ r ∈ kwSearch stem mlog st q top_k ms, ∃ d total,
      (d, total) ∈ kwSearchScores stem mlog st (tokenize_text stem q) ms ∧
      r = kwResultRecord st (d, total) ∧
      ∃ t ∈ tokenize_text stem q, ∃ t' ∈ (tokenize_text stem t).take 1,
        0 < dgetD (dgetD st.term_frequencies d []) t' 0 := by
  intro r hr
  unfold kwSearch at hr
  by_cases hempty : st.docmap.length = 0
  · simp [hempty] at hr
  · simp only [hempty, if_false] at hr
    by_cases hq : (tokenize_text stem q).isEmpty
    · simp [hq] at hr
    · simp only [hq, Bool.false_eq_true, if_false] at hr
      obtain ⟨p, hp, hrec⟩ := List.mem_map.mp hr
      have hp2 : p ∈ sortDesc (fun a b : String × ℚ => decide (b.2 ≤ a.2))
          (kwSearchScores stem mlog st (tokenize_text stem q) ms) :=
        List.take_subset _ _ hp
      have hp3 : p ∈ kwSearchScores stem mlog st (tokenize_text stem q) ms :=
        (mem_sortDesc _ _ _).mp hp2
      obtain ⟨d, total⟩ := p
      refine ⟨d, total, hp3, hrec.symm, ?_⟩
      unfold kwSearchScores at hp3
      obtain ⟨d', hd', hif⟩ := List.mem_filterMap.mp hp3
      by_cases hle : ms ≤ bm25TotalScore stem mlog st (tokenize_text stem q) d'
      · simp only [hle, if_true, Option.some.injEq, Prod.mk.injEq] at hif
        obtain ⟨h1, h2⟩ := hif
        rw [h1] at hle
        by_contra hnone
        push_neg at hnone
        have hall : ∀ t ∈ tokenize_text stem q,
            bm25_score stem mlog st d t = 0 := by
          intro t ht
          apply bm25_score_of_no_hit
          intro t' ht'
          have := hnone t ht t' ht'
          omega
        have hzero : bm25TotalScore stem mlog st (tokenize_text stem q) d = 0 := by
          unfold bm25TotalScore
          rw [List.sum_eq_zero]
          intro x hx
          obtain ⟨t, ht, rfl⟩ := List.mem_map.mp hx
          exact hall t ht
        rw [hzero] at hle
        exact absurd (lt_of_lt_of_le hms hle) (lt_irrefl 0)
      · simp [hle] at hif

/-- Witness for `C2_amended` on a corpus where the query does hit. -/
theorem C2_witness :
    (0 : ℚ) < 1/10 ∧
    ∀ r ∈ kwSearch porterStem mlogLin stW "wills and cement" 5 (1/10),
      ∃ d total,
        (d, total) ∈ kwSearchScores porterStem mlogLin stW
          (tokenize_text porterStem "wills and cement") (1/10) ∧
        r = kwResultRecord stW (d, total) ∧
        ∃ t ∈ tokenize_text porterStem "wills and cement",
          ∃ t' ∈ (tokenize_text porterStem t).take 1,
            0 < dgetD (dgetD stW.term_frequencies d []) t' 0 :=
  ⟨by norm_num,
    C2_amended porterStem mlogLin stW "wills and cement" 5 (1/10)
      (by norm_num)⟩

/-! ## Claim C3: what text each indexing path tokenizes -/

theorem dmem_false_iff {α : Type} (m : DMap α) (k : String) :
    dmem m k = false ↔ dget m k = none := by
  unfold dmem
  cases dget m k <;> simp

theorem buildKW_tf_not_mem (stem : String → String) (st : KWState)
    (mats : List Material) (d : String)
    (h : ∀ m ∈ mats, sget m "_id" ≠ d) :
    dget (buildKW stem st mats).term_frequencies d =
      dget st.term_frequencies d := by
  induction mats generalizing st with
  | nil => rfl
  | cons m0 rest ih =>
      unfold buildKW
      simp only [List.foldl_cons]
      have step := ih (addDocumentCore stem
        { st with docmap := dinsert st.docmap (sget m0 "_id") m0 }
        (sget m0 "_id") (concat3 m0))
        (fun m hm => h m (by simp [hm]))
      unfold buildKW at step
      rw [step, addDocumentCore_tf_ne]
      exact fun he => h m0 (by simp) he.symm

theorem buildKW_tf_fresh (stem : String → String) (st : KWState)
    (mats : List Material)
    (hnd : (mats.map (fun m => sget m "_id")).Nodup)
    (hfresh : ∀ m ∈ mats, dmem st.term_frequencies (sget m "_id") = false) :
    ∀ m ∈ mats, dget (buildKW stem st mats).term_frequencies (sget m "_id") =
      some (counterOf (tokenize_text stem (concat3 m))) := by
  induction mats generalizing st with
  | nil => intro m hm; simp at hm
  | cons m0 rest ih =>
      intro m hm
      rw [List.map_cons, List.nodup_cons] at hnd
      obtain ⟨hnm, hnd2⟩ := hnd
      set st1 := addDocumentCore stem
        { st with docmap := dinsert st.docmap (sget m0 "_id") m0 }
        (sget m0 "_id") (concat3 m0) with hst1
      have hunf : buildKW stem st (m0 :: rest) = buildKW stem st1 rest := by
        unfold buildKW
        simp [hst1]
      rcases List.mem_cons.mp hm with rfl | hmem
      · rw [hunf, buildKW_tf_not_mem stem st1 rest (sget m "_id")
          (fun m' hm' he => hnm (by
            rw [← he]
            exact List.mem_map.mpr ⟨m', hm', rfl⟩))]
        rw [hst1]
        apply addDocumentCore_tf_fresh
        exact hfresh m (by simp)
      · rw [hunf]
        refine ih st1 hnd2 ?_ m hmem
        intro m' hm'
        have hne : sget m' "_id" ≠ sget m0 "_id" := by
          intro he
          exact hnm (he ▸ List.mem_map.mpr ⟨m', hm', rfl⟩)
        rw [dmem_false_iff]
        rw [hst1, addDocumentCore_tf_ne _ _ _ _ _ hne]
        rw [← dmem_false_iff]
        exact hfresh m' (by simp [hm'])

theorem webhookAdd_spec (stem : String → String) (encode : String → List ℚ)
    (now : Nat) (mn : String) (s : SysState) (pid : String)
    (product : Material) (s' : SysState)
    (hdb : dget s.db pid = some product)
    (hfresh : dmem s.kw.term_frequencies pid = false)
    (hsucc : webhookAdd stem encode now mn s pid = (s', none)) :
    dget s'.kw.term_frequencies pid =
      some (counterOf (tokenize_text stem (sget product "title"))) ∧
    s'.sem.embeddings = s.sem.embeddings ++ [encode (concat3 product)] := by
  unfold webhookAdd at hsucc
  rw [hdb] at hsucc
  by_cases hemb : dmem product "embedding" = true
  · simp [hemb] at hsucc
  · simp only [Bool.not_eq_true] at hemb
    simp only [hemb, Bool.false_eq_true, if_false] at hsucc
    by_cases htitle : sget product "title" = ""
    · simp [htitle] at hsucc
    · simp only [htitle, if_false] at hsucc
      have hgen : dget product "embedding" = none := (dmem_false_iff _ _).mp hemb
      have hr : add_material encode now mn s pid =
          (true, { s with
            db := dbUpdateEmbedding s.db pid (encode (concat3 product)),
            sem := ⟨s.sem.materials ++
              [dinsert (dinsert (dinsert product "embedding"
                (MVal.vec (encode (concat3 product))))
                "embedding_generated_at" (MVal.time now))
                "embedding_model" (MVal.str mn)],
              s.sem.embeddings ++ [encode (concat3 product)]⟩ }) := by
        unfold add_material
        rw [hdb]
        simp only [hgen, mtruthy, Bool.false_eq_true, if_false]
      rw [hr] at hsucc
      have hdb2 : dget (dbUpdateEmbedding s.db pid (encode (concat3 product))) pid =
          some (dinsert product "embedding" (MVal.vec (encode (concat3 product)))) := by
        unfold dbUpdateEmbedding
        rw [hdb, dget_dinsert_self]
      simp only [Bool.not_true, Bool.false_eq_true, if_false] at hsucc
      rw [hdb2] at hsucc
      simp only [Prod.mk.injEq] at hsucc
      obtain ⟨hs', -⟩ := hsucc
      rw [← hs']
      constructor
      · exact addDocumentCore_tf_fresh stem _ pid _ hfresh
      · rfl

theorem dbUpdateEmbedding_dget (db : DMap Material) (pid : String)
    (emb : List ℚ) (product : Material)
    (hdb : dget db pid = some product) :
    dget (dbUpdateEmbedding db pid emb) pid =
      some (dinsert product "embedding" (MVal.vec emb)) := by
  unfold dbUpdateEmbedding
  rw [hdb, dget_dinsert_self]

theorem removeDocumentCore_tf_self (st : KWState) (did : String) :
    dmem (removeDocumentCore st did).term_frequencies did = false := by
  rw [removeDocumentCore_tf, dmem_false_iff]
  exact dget_dremove_self _ _

theorem webhookUpdate_spec (stem : String → String)
    (encode : String → List ℚ) (now : Nat) (mn : String) (s : SysState)
    (pid : String) (product : Material) (s' : SysState)
    (hdb : dget s.db pid = some product)
    (hsucc : webhookUpdate stem encode now mn s pid = (s', none)) :
    dget s'.kw.term_frequencies pid =
      some (counterOf (tokenize_text stem (sget product "title"))) ∧
    dget s'.db pid =
      some (dinsert product "embedding"
        (MVal.vec (encode (concat3 product)))) := by
  unfold webhookUpdate at hsucc
  rw [hdb] at hsucc
  by_cases hemb : dmem product "embedding" = true
  · simp only [hemb, Bool.not_true, Bool.false_eq_true, if_false] at hsucc
    by_cases htitle : sget product "title" = ""
    · simp [htitle] at hsucc
    · simp only [htitle, if_false] at hsucc
      cases hidx : s.sem.materials.findIdx?
          (fun m => sget m "_id" = pid) with
      | none =>
          have hr : update_material encode now mn s pid =
              (true, { s with
                db := dbUpdateEmbedding s.db pid (encode (concat3 product)),
                sem := ⟨s.sem.materials ++
                  [dinsert (dinsert (dinsert product "embedding"
                    (MVal.vec (encode (concat3 product))))
                    "embedding_generated_at" (MVal.time now))
                    "embedding_model" (MVal.str mn)],
                  s.sem.embeddings ++ [encode (concat3 product)]⟩ }) := by
            unfold update_material
            rw [hdb, hidx]
          rw [hr] at hsucc
          simp only [Bool.not_true, Bool.false_eq_true, if_false] at hsucc
          rw [dbUpdateEmbedding_dget _ _ _ _ hdb] at hsucc
          simp only [Prod.mk.injEq] at hsucc
          obtain ⟨hs', -⟩ := hsucc
          rw [← hs']
          refine ⟨addDocumentCore_tf_fresh stem _ pid _
            (removeDocumentCore_tf_self _ pid), ?_⟩
          exact dbUpdateEmbedding_dget _ _ _ _ hdb
      | some idx =>
          have hr : update_material encode now mn s pid =
              (true, { s with
                db := dbUpdateEmbedding s.db pid (encode (concat3 product)),
                sem := ⟨s.sem.materials.set idx
                  (dinsert (dinsert (dinsert product "embedding"
                    (MVal.vec (encode (concat3 product))))
                    "embedding_generated_at" (MVal.time now))
                    "embedding_model" (MVal.str mn)),
                  s.sem.embeddings.set idx (encode (concat3 product))⟩ }) := by
            unfold update_material
            rw [hdb, hidx]
          rw [hr] at hsucc
          simp only [Bool.not_true, Bool.false_eq_true, if_false] at hsucc
          rw [dbUpdateEmbedding_dget _ _ _ _ hdb] at hsucc
          simp only [Prod.mk.injEq] at hsucc
          obtain ⟨hs', -⟩ := hsucc
          rw [← hs']
          refine ⟨addDocumentCore_tf_fresh stem _ pid _
            (removeDocumentCore_tf_self _ pid), ?_⟩
          exact dbUpdateEmbedding_dget _ _ _ _ hdb
  · simp only [Bool.not_eq_true] at hemb
    simp [hemb] at hsucc

/-- A product whose category word does not occur in its title. -/
def matP : Material :=
  [("_id", MVal.str "p1"), ("title", MVal.str "cement"),
   ("category", MVal.str "powder")]

/-- Opaque embedder stand-in for concrete runs. -/
def encOne : String → List ℚ := fun _ => [1]

/-- System state whose document store holds only `matP`, before indexing. -/
def sysP : SysState := ⟨[("p1", matP)], ⟨[], []⟩, KWState.empty⟩

/-- `matP` as an already-indexed product (it carries an embedding). -/
def matP2 : Material :=
  [("_id", MVal.str "p1"), ("title", MVal.str "cement"),
   ("category", MVal.str "powder"), ("embedding", MVal.vec [1])]

/-- System state for the update webhook: the stored product has an
embedding. -/
def sysP2 : SysState := ⟨[("p1", matP2)], ⟨[matP2], [[1]]⟩, KWState.empty⟩

/-- Claim C3 as stated is false: the product-added webhook hands the BM25
index only the product's title, so after a successful webhook call for a
product titled "cement" with category "powder" the stored term counts are
only those of "cement" — not the counts of the concatenated
title/category/description text, which also contain "powder". -/
theorem C3_counterexample :
    (webhookAdd porterStem encOne 0 "model" sysP "p1").2 = none ∧
    dget (webhookAdd porterStem encOne 0 "model" sysP
      "p1").1.kw.term_frequencies "p1" = some [("cement", 1)] ∧
    counterOf (tokenize_text porterStem (concat3 matP)) =
      [("cement", 1), ("powder", 1)] ∧
    dget (webhookAdd porterStem encOne 0 "model" sysP
      "p1").1.kw.term_frequencies "p1" ≠
      some (counterOf (tokenize_text porterStem (concat3 matP))) := by
  with_unfolding_all decide

/-- Claim C3, amended: the full `build` tokenizes and indexes the
space-separated concatenation of title, category and description, and the
webhook ingestion paths compute the *embedding* from that same
concatenation; but on the BM25 side both webhooks index only the
product's title. -/
theorem C3_amended (stem : String → String) (encode : String → List ℚ)
    (now : Nat) (mn : String) :
    (∀ (st : KWState) (mats : List Material),
      (mats.map (fun m => sget m "_id")).Nodup →
      (∀ m ∈ mats, dmem st.term_frequencies (sget m "_id") = false) →
      ∀ m ∈ mats,
        dget (buildKW stem st mats).term_frequencies (sget m "_id") =
          some (counterOf (tokenize_text stem (concat3 m)))) ∧
    (∀ (s : SysState) (pid : String) (product : Material) (s' : SysState),
      dget s.db pid = some product →
      dmem s.kw.term_frequencies pid = false →
      webhookAdd stem encode now mn s pid = (s', none) →
      dget s'.kw.term_frequencies pid =
        some (counterOf (tokenize_text stem (sget product "title"))) ∧
      s'.sem.embeddings = s.sem.embeddings ++ [encode (concat3 product)]) ∧
    (∀ (s : SysState) (pid : String) (product : Material) (s' : SysState),
      dget s.db pid = some product →
      webhookUpdate stem encode now mn s pid = (s', none) →
      dget s'.kw.term_frequencies pid =
        some (counterOf (tokenize_text stem (sget product "title"))) ∧
      dget s'.db pid = some (dinsert product "embedding"
        (MVal.vec (encode (concat3 product))))) :=
  ⟨fun st mats hnd hfresh => buildKW_tf_fresh stem st mats hnd hfresh,
   fun s pid product s' hdb hfresh hsucc =>
     webhookAdd_spec stem encode now mn s pid product s' hdb hfresh hsucc,
   fun s pid product s' hdb hsucc =>
     webhookUpdate_spec stem encode now mn s pid product s' hdb hsucc⟩

/-- Witness for `C3_amended` on concrete one-product stores. -/
theorem C3_witness :
    (∀ m ∈ [matP],
      dget (buildKW porterStem KWState.empty [matP]).term_frequencies
        (sget m "_id") =
        some (counterOf (tokenize_text porterStem (concat3 m)))) ∧
    (dget (webhookAdd porterStem encOne 0 "model" sysP
        "p1").1.kw.term_frequencies "p1" =
      some (counterOf (tokenize_text porterStem (sget matP "title"))) ∧
     (webhookAdd porterStem encOne 0 "model" sysP "p1").1.sem.embeddings =
       sysP.sem.embeddings ++ [encOne (concat3 matP)]) ∧
    (dget (webhookUpdate porterStem encOne 0 "model" sysP2
        "p1").1.kw.term_frequencies "p1" =
      some (counterOf (tokenize_text porterStem (sget matP2 "title"))) ∧
     dget (webhookUpdate porterStem encOne 0 "model" sysP2 "p1").1.db
        "p1" =
      some (dinsert matP2 "embedding"
        (MVal.vec (encOne (concat3 matP2))))) :=
  ⟨(C3_amended porterStem encOne 0 "model").1 KWState.empty [matP]
      (by with_unfolding_all decide) (by with_unfolding_all decide),
   (C3_amended porterStem encOne 0 "model").2.1 sysP "p1" matP
      (webhookAdd porterStem encOne 0 "model" sysP "p1").1
      (by with_unfolding_all decide) (by with_unfolding_all decide)
      (by with_unfolding_all decide),
   (C3_amended porterStem encOne 0 "model").2.2 sysP2 "p1" matP2
      (webhookUpdate porterStem encOne 0 "model" sysP2 "p1").1
      (by with_unfolding_all decide) (by with_unfolding_all decide)⟩

/-! ## Claim C4: idempotence of add -/

theorem webhookAdd_db (stem : String → String) (encode : String → List ℚ)
    (now : Nat) (mn : String) (s : SysState) (pid : String) (s' : SysState)
    (hsucc : webhookAdd stem encode now mn s pid = (s', none)) :
    ∃ product, dget s.db pid = some product ∧
      dget s'.db pid = some (dinsert product "embedding"
        (MVal.vec (encode (concat3 product)))) := by
  unfold webhookAdd at hsucc
  cases hdb : dget s.db pid with
  | none => rw [hdb] at hsucc; simp at hsucc
  | some product =>
      rw [hdb] at hsucc
      refine ⟨product, rfl, ?_⟩
      by_cases hemb : dmem product "embedding" = true
      · simp [hemb] at hsucc
      · simp only [Bool.not_eq_true] at hemb
        simp only [hemb, Bool.false_eq_true, if_false] at hsucc
        by_cases htitle : sget product "title" = ""
        · simp [htitle] at hsucc
        · simp only [htitle, if_false] at hsucc
          have hgen : dget product "embedding" = none :=
            (dmem_false_iff _ _).mp hemb
          have hr : add_material encode now mn s pid =
              (true, { s with
                db := dbUpdateEmbedding s.db pid (encode (concat3 product)),
                sem := ⟨s.sem.materials ++
                  [dinsert (dinsert (dinsert product "embedding"
                    (MVal.vec (encode (concat3 product))))
                    "embedding_generated_at" (MVal.time now))
                    "embedding_model" (MVal.str mn)],
                  s.sem.embeddings ++ [encode (concat3 product)]⟩ }) := by
            unfold add_material
            rw [hdb]
            simp only [hgen, mtruthy, Bool.false_eq_true, if_false]
          rw [hr] at hsucc
          have hdb2 : dget (dbUpdateEmbedding s.db pid
              (encode (concat3 product))) pid =
              some (dinsert product "embedding"
                (MVal.vec (encode (concat3 product)))) :=
            dbUpdateEmbedding_dget _ _ _ _ hdb
          simp only [Bool.not_true, Bool.false_eq_true, if_false] at hsucc
          rw [hdb2] at hsucc
          simp only [Prod.mk.injEq] at hsucc
          obtain ⟨hs', -⟩ := hsucc
          rw [← hs']
          exact hdb2

theorem addDocumentCore_tf_counts (stem : String → String) (st : KWState)
    (did text : String) (tok : String) :
    dgetD (dgetD (addDocumentCore stem st did text).term_frequencies
      did []) tok 0 =
      dgetD (dgetD st.term_frequencies did []) tok 0 +
        (tokenize_text stem text).count tok := by
  by_cases hm : dmem st.term_frequencies did = true
  · have hsome : ∃ c, dget st.term_frequencies did = some c := by
      unfold dmem at hm
      cases h : dget st.term_frequencies did with
      | none => rw [h] at hm; simp at hm
      | some c => exact ⟨c, rfl⟩
    obtain ⟨c, hc⟩ := hsome
    rw [show dgetD (dgetD st.term_frequencies did []) tok 0 =
      dgetD c tok 0 from by unfold dgetD; rw [hc]; rfl]
    have := addDocumentCore_tf_existing stem st did text c hc
    unfold dgetD
    rw [this]
    simp only [Option.getD_some]
    have hfc := dgetD_foldl_cinc (tokenize_text stem text) c tok
    unfold dgetD at hfc
    exact hfc
  · simp only [Bool.not_eq_true] at hm
    have hnone : dget st.term_frequencies did = none :=
      (dmem_false_iff _ _).mp hm
    rw [show dgetD (dgetD st.term_frequencies did []) tok 0 = 0 from by
      unfold dgetD; rw [hnone]; rfl]
    have := addDocumentCore_tf_fresh stem st did text hm
    unfold dgetD
    rw [this]
    simp only [Option.getD_some]
    have := dgetD_counterOf (tokenize_text stem text) tok
    unfold dgetD at this
    rw [this]
    omega

theorem addDocumentCore_index_mem (stem : String → String) (st : KWState)
    (did text : String) :
    ∀ tok ∈ dedupFirst (tokenize_text stem text),
      did ∈ dgetD (addDocumentCore stem st did text).index tok [] := by
  intro tok htok
  exact idxFold_mem (dedupFirst (tokenize_text stem text)) st.index did
    (dedupFirst_nodup _) tok htok

theorem addDocumentCore_index_again (stem : String → String) (st : KWState)
    (did text : String) :
    (addDocumentCore stem (addDocumentCore stem st did text) did
      text).index = (addDocumentCore stem st did text).index := by
  conv_lhs => unfold addDocumentCore
  exact idxFold_noop _ _ _ (addDocumentCore_index_mem stem st did text)

theorem addDocumentCore_dl_again (stem : String → String) (st : KWState)
    (did text : String) :
    (addDocumentCore stem (addDocumentCore stem st did text) did
      text).doc_lengths = (addDocumentCore stem st did text).doc_lengths := by
  rw [addDocumentCore_dl, addDocumentCore_dl]
  apply dinsert_eq_of_dget
  rw [dget_dinsert_self]

theorem add_material_present (encode : String → List ℚ) (now : Nat)
    (mn : String) (s : SysState) (pid : String) (material : Material)
    (hdb : dget s.db pid = some material)
    (htr : mtruthy (dget material "embedding") = true)
    (hmem : s.sem.materials.any (fun m => sget m "_id" = pid) = true) :
    add_material encode now mn s pid = (true, s) := by
  unfold add_material
  rw [hdb]
  simp [htr, hmem]

/-- Claim C4 as stated is false at the index level: the public BM25
`add_document` on an already-present doc id reports no error (it returns a
state, not an `AlreadyIndexed` failure) and mutates the state — the stored
term frequencies double. -/
theorem C4_counterexample :
    add_document porterStem [("d1", matS)] KWState.empty "d1" "steel" =
      some ((add_document porterStem [("d1", matS)] KWState.empty "d1"
        "steel").getD KWState.empty) ∧
    add_document porterStem [("d1", matS)]
      ((add_document porterStem [("d1", matS)] KWState.empty "d1"
        "steel").getD KWState.empty) "d1" "steel" ≠
      some ((add_document porterStem [("d1", matS)] KWState.empty "d1"
        "steel").getD KWState.empty) ∧
    dgetD (dgetD ((add_document porterStem [("d1", matS)]
      ((add_document porterStem [("d1", matS)] KWState.empty "d1"
        "steel").getD KWState.empty) "d1" "steel").getD
        KWState.empty).term_frequencies "d1" []) "steel" 0 = 2 ∧
    dgetD (dgetD ((add_document porterStem [("d1", matS)] KWState.empty
      "d1" "steel").getD KWState.empty).term_frequencies "d1" [])
      "steel" 0 = 1 := by
  with_unfolding_all decide

/-- Claim C4, amended.  At the ingestion (webhook) level adding twice is
harmless: the second `product-added` call is rejected (the stored document
now carries an `embedding` key) and leaves the state untouched, so both
indexes equal the single-add state.  At the index level, however, add on
an already-present doc id does **not** report `AlreadyIndexed`: the BM25
`_add_document` silently doubles the stored term frequencies (while
postings, doc lengths and docmap are unchanged), and the vector
`add_material` returns success without mutating anything. -/
theorem C4_amended (stem : String → String) (encode : String → List ℚ)
    (now : Nat) (mn : String) :
    (∀ (s : SysState) (pid : String) (s1 : SysState),
      webhookAdd stem encode now mn s pid = (s1, none) →
      webhookAdd stem encode now mn s1 pid =
        (s1, some HErr.alreadyIndexed)) ∧
    (∀ (st : KWState) (did text : String),
      (addDocumentCore stem (addDocumentCore stem st did text) did
        text).index = (addDocumentCore stem st did text).index ∧
      (addDocumentCore stem (addDocumentCore stem st did text) did
        text).doc_lengths =
        (addDocumentCore stem st did text).doc_lengths ∧
      (addDocumentCore stem (addDocumentCore stem st did text) did
        text).docmap = (addDocumentCore stem st did text).docmap ∧
      ∀ tok,
        dgetD (dgetD (addDocumentCore stem (addDocumentCore stem st did
          text) did text).term_frequencies did []) tok 0 =
        dgetD (dgetD st.term_frequencies did []) tok 0 +
          2 * (tokenize_text stem text).count tok) ∧
    (∀ (s : SysState) (pid : String) (material : Material),
      dget s.db pid = some material →
      mtruthy (dget material "embedding") = true →
      s.sem.materials.any (fun m => sget m "_id" = pid) = true →
      add_material encode now mn s pid = (true, s)) := by
  refine ⟨?_, ?_, ?_⟩
  · intro s pid s1 h
    obtain ⟨product, hdb, hdb1⟩ := webhookAdd_db stem encode now mn s pid s1 h
    unfold webhookAdd
    rw [hdb1]
    have hm : dmem (dinsert product "embedding"
        (MVal.vec (encode (concat3 product)))) "embedding" = true := by
      unfold dmem
      rw [dget_dinsert_self]
      rfl
    simp [hm]
  · intro st did text
    refine ⟨addDocumentCore_index_again stem st did text,
      addDocumentCore_dl_again stem st did text, rfl, ?_⟩
    intro tok
    rw [addDocumentCore_tf_counts, addDocumentCore_tf_counts]
    omega
  · intro s pid material hdb htr hmem
    exact add_material_present encode now mn s pid material hdb htr hmem

/-- Witness for `C4_amended` on concrete states. -/
theorem C4_witness :
    webhookAdd porterStem encOne 0 "model"
      (webhookAdd porterStem encOne 0 "model" sysP "p1").1 "p1" =
      ((webhookAdd porterStem encOne 0 "model" sysP "p1").1,
        some HErr.alreadyIndexed) ∧
    (∀ tok,
      dgetD (dgetD (addDocumentCore porterStem (addDocumentCore porterStem
        KWState.empty "d1" "steel") "d1" "steel").term_frequencies
        "d1" []) tok 0 =
      dgetD (dgetD KWState.empty.term_frequencies "d1" []) tok 0 +
        2 * (tokenize_text porterStem "steel").count tok) ∧
    add_material encOne 0 "model" sysP2 "p1" = (true, sysP2) :=
  ⟨(C4_amended porterStem encOne 0 "model").1 sysP "p1"
      (webhookAdd porterStem encOne 0 "model" sysP "p1").1
      (by with_unfolding_all decide),
    ((C4_amended porterStem encOne 0 "model").2.1 KWState.empty "d1"
      "steel").2.2.2,
    (C4_amended porterStem encOne 0 "model").2.2 sysP2 "p1" matP2
      (by with_unfolding_all decide) (by with_unfolding_all decide)
      (by with_unfolding_all decide)⟩

/-! ## Claim C5: the `sum(tf[d]) = doc_len[d]` invariant -/

/-- The claimed invariant: for every indexed document, the stored term
frequency counts sum to the stored document length (and the two maps have
the same keys). -/
def KWInv (st : KWState) : Prop :=
  ∀ d, (dget st.term_frequencies d).map sumC = dget st.doc_lengths d

/-- The BM25 states reachable by the engine's own mutations when every
add targets a doc id that is not currently indexed: the empty engine,
`_add_document` on a fresh id, `_remove_document`, and replacement of
`docmap` (which covers `build`'s docmap writes and the `load` path, where
the three serialized maps are restored as saved and `docmap` is refilled
from the document store). -/
inductive KWReach : KWState → Prop where
  | empty : KWReach KWState.empty
  | addFresh (stem : String → String) (st : KWState) (did text : String) :
      KWReach st → dmem st.term_frequencies did = false →
      KWReach (addDocumentCore stem st did text)
  | remove (st : KWState) (did : String) :
      KWReach st → KWReach (removeDocumentCore st did)
  | setdocmap (st : KWState) (dm : DMap Material) :
      KWReach st →
      KWReach ⟨st.index, dm, st.term_frequencies, st.doc_lengths⟩

theorem kwInv_of_reach (st : KWState) (h : KWReach st) : KWInv st := by
  induction h with
  | empty => intro d; rfl
  | addFresh stem st did text _ hfresh ih =>
      intro d
      by_cases hd : d = did
      · subst hd
        rw [addDocumentCore_tf_fresh stem st d text hfresh]
        rw [show (addDocumentCore stem st d text).doc_lengths =
          dinsert st.doc_lengths d (tokenize_text stem text).length from rfl]
        rw [dget_dinsert_self]
        simp [sumC_counterOf]
      · rw [addDocumentCore_tf_ne stem st did text d hd]
        rw [show (addDocumentCore stem st did text).doc_lengths =
          dinsert st.doc_lengths did (tokenize_text stem text).length from
          rfl]
        rw [dget_dinsert_ne _ _ _ _ hd]
        exact ih d
  | remove st did _ ih =>
      intro d
      rw [removeDocumentCore_tf, removeDocumentCore_dl]
      by_cases hd : d = did
      · subst hd
        rw [dget_dremove_self, dget_dremove_self]
        rfl
      · rw [dget_dremove_ne _ _ _ hd, dget_dremove_ne _ _ _ hd]
        exact ih d
  | setdocmap st dm _ ih => exact ih

theorem buildKW_reach (stem : String → String) (st : KWState)
    (mats : List Material) (h : KWReach st)
    (hfresh : ∀ m ∈ mats, dmem st.term_frequencies (sget m "_id") = false)
    (hnd : (mats.map (fun m => sget m "_id")).Nodup) :
    KWReach (buildKW stem st mats) := by
  induction mats generalizing st with
  | nil => exact h
  | cons m0 rest ih =>
      rw [List.map_cons, List.nodup_cons] at hnd
      obtain ⟨hnm, hnd2⟩ := hnd
      have hstep : KWReach (addDocumentCore stem
          { st with docmap := dinsert st.docmap (sget m0 "_id") m0 }
          (sget m0 "_id") (concat3 m0)) := by
        apply KWReach.addFresh
        · exact KWReach.setdocmap st _ h
        · exact hfresh m0 (by simp)
      have hunf : buildKW stem st (m0 :: rest) =
          buildKW stem (addDocumentCore stem
            { st with docmap := dinsert st.docmap (sget m0 "_id") m0 }
            (sget m0 "_id") (concat3 m0)) rest := by
        unfold buildKW
        simp
      rw [hunf]
      apply ih _ hstep _ hnd2
      intro m' hm'
      have hne : sget m' "_id" ≠ sget m0 "_id" := by
        intro he
        exact hnm (he ▸ List.mem_map.mpr ⟨m', hm', rfl⟩)
      rw [dmem_false_iff, addDocumentCore_tf_ne _ _ _ _ _ hne,
        ← dmem_false_iff]
      exact hfresh m' (by simp [hm'])

/-- A duplicated-text corpus state produced by two `_add_document` calls
for the same doc id. -/
def stDup : KWState :=
  addDocumentCore porterStem
    (addDocumentCore porterStem KWState.empty "d1" "tmt steel")
    "d1" "tmt steel"

/-- Claim C5 as stated is false: after the completed (error-free) second
add of the same document — a state the public `add_document` reaches, see
the claim C4 development — the term counts sum to 4 while the stored
document length is 2, so the invariant is violated at an observable
point. -/
theorem C5_counterexample :
    (dget stDup.term_frequencies "d1").map sumC = some 4 ∧
    dget stDup.doc_lengths "d1" = some 2 ∧
    ¬ KWInv stDup :=
  ⟨by with_unfolding_all decide, by with_unfolding_all decide,
    fun h => absurd (h "d1") (by with_unfolding_all decide)⟩

/-- Claim C5, amended: the invariant `sum(tf[d].values()) = doc_len[d]`
(with equal key sets of the two maps) holds at every observable point of
any operation sequence in which each add targets a doc id not currently
indexed: it holds for all `KWReach` states, and the public
`update_document`, fresh public `add_document`, and `build` over fresh
distinct ids all stay inside `KWReach`. -/
theorem C5_amended :
    (∀ st : KWState, KWReach st → KWInv st) ∧
    (∀ (stem : String → String) (db : DMap Material) (st : KWState)
      (did text : String) (st' : KWState), KWReach st →
      update_document stem db st did text = some st' → KWReach st') ∧
    (∀ (stem : String → String) (db : DMap Material) (st : KWState)
      (did text : String) (st' : KWState), KWReach st →
      dmem st.term_frequencies did = false →
      add_document stem db st did text = some st' → KWReach st') ∧
    (∀ (stem : String → String) (st : KWState) (mats : List Material),
      KWReach st →
      (∀ m ∈ mats, dmem st.term_frequencies (sget m "_id") = false) →
      (mats.map (fun m => sget m "_id")).Nodup →
      KWReach (buildKW stem st mats)) := by
  refine ⟨kwInv_of_reach, ?_, ?_, buildKW_reach⟩
  · intro stem db st did text st' h hup
    unfold update_document at hup
    cases hdb : dget db did with
    | none => rw [hdb] at hup; simp at hup
    | some material =>
        rw [hdb] at hup
        simp only [Option.some.injEq] at hup
        rw [← hup]
        apply KWReach.addFresh
        · exact KWReach.remove _ _ (KWReach.setdocmap st _ h)
        · exact removeDocumentCore_tf_self _ _
  · intro stem db st did text st' h hfresh hadd
    unfold add_document at hadd
    cases hdb : dget db did with
    | none => rw [hdb] at hadd; simp at hadd
    | some material =>
        rw [hdb] at hadd
        simp only [Option.some.injEq] at hadd
        rw [← hadd]
        exact KWReach.addFresh stem _ did text (KWReach.setdocmap st _ h)
          hfresh

/-- Witness for `C5_amended`: the invariant holds for the one-document
build state. -/
theorem C5_witness : KWInv (buildKW porterStem KWState.empty [matP]) :=
  C5_amended.1 _ (C5_amended.2.2.2 porterStem KWState.empty [matP]
    KWReach.empty (by with_unfolding_all decide)
    (by with_unfolding_all decide))

/-! ## Claim C6: min-max normalization and linear combination -/

theorem pmax2_val (a b : ℚ) :
    PF.pmax2 (PF.val a) (PF.val b) = PF.val (max a b) := by
  unfold PF.pmax2 PF.gtB
  by_cases h : a < b
  · simp [h, max_eq_right h.le]
  · simp [h, max_eq_left (not_lt.mp h)]

theorem pmin2_val (a b : ℚ) :
    PF.pmin2 (PF.val a) (PF.val b) = PF.val (min a b) := by
  unfold PF.pmin2 PF.gtB
  by_cases h : b < a
  · simp [h, min_eq_right h.le]
  · simp [h, min_eq_left (not_lt.mp h)]

theorem pmaxL_val (v : ℚ) (vs : List ℚ) :
    PF.pmaxL (PF.val v) (vs.map PF.val) = PF.val (vs.foldl max v) := by
  induction vs generalizing v with
  | nil => rfl
  | cons x xs ih =>
      unfold PF.pmaxL at ih ⊢
      simp only [List.map_cons, List.foldl_cons, pmax2_val]
      exact ih (max v x)

theorem pminL_val (v : ℚ) (vs : List ℚ) :
    PF.pminL (PF.val v) (vs.map PF.val) = PF.val (vs.foldl min v) := by
  induction vs generalizing v with
  | nil => rfl
  | cons x xs ih =>
      unfold PF.pminL at ih ⊢
      simp only [List.map_cons, List.foldl_cons, pmin2_val]
      exact ih (min v x)

theorem dmapv_dmapv {α β γ : Type} (f : β → γ) (g : α → β) (m : DMap α) :
    dmapv f (dmapv g m) = dmapv (fun x => f (g x)) m := by
  unfold dmapv
  rw [List.map_map]
  rfl

/-- The spec's min-max normalization of one score dict, evaluated at a doc
id: `(s - m)/(M - m)` when the max exceeds the min, `0` when all scores
are equal, and `0` for a doc id absent from the dict. -/
def specMinMax (scores : DMap ℚ) (d : String) : ℚ :=
  match dget scores d with
  | none => 0
  | some s =>
      match dvals scores with
      | [] => 0
      | v :: vs =>
          let M := vs.foldl max v
          let m := vs.foldl min v
          if m < M then (s - m) / (M - m) else 0

theorem dvals_nil_iff {α : Type} (m : DMap α) : dvals m = [] ↔ m = [] := by
  cases m <;> simp [dvals]

theorem normalize_lookup (sq : DMap ℚ) (d : String) :
    dgetD (normalizeScores (dmapv PF.val sq)) d (PF.val 0) =
      PF.val (specMinMax sq d) := by
  unfold normalizeScores
  cases hv : dvals sq with
  | nil =>
      have hsq : sq = [] := (dvals_nil_iff sq).mp hv
      subst hsq
      unfold specMinMax
      simp [dmapv, dvals, pyMaxD, pyMinD, dgetD, dget, PF.sub, PF.gtB]
  | cons v vs =>
      have hvv : dvals (dmapv PF.val sq) = PF.val v :: (vs.map PF.val) := by
        rw [dvals_dmapv, hv, List.map_cons]
      rw [hvv]
      have hmax : pyMaxD (PF.val v :: vs.map PF.val) 1 =
          PF.val (vs.foldl max v) := pmaxL_val v vs
      have hmin : pyMinD (PF.val v :: vs.map PF.val) 0 =
          PF.val (vs.foldl min v) := pminL_val v vs
      rw [hmax, hmin]
      dsimp only
      rw [show PF.sub (PF.val (vs.foldl max v)) (PF.val (vs.foldl min v)) =
        PF.val (vs.foldl max v - vs.foldl min v) from rfl]
      by_cases hlt : vs.foldl min v < vs.foldl max v
      · have hc : PF.gtB (PF.val (vs.foldl max v - vs.foldl min v))
            (PF.val 0) = true := by
          unfold PF.gtB
          exact decide_eq_true (sub_pos.mpr hlt)
        rw [if_pos hc]
        have hmap : (dmapv PF.val sq).map (fun p =>
            (p.1, PF.div (PF.sub p.2 (PF.val (vs.foldl min v)))
              (PF.val (vs.foldl max v - vs.foldl min v)))) =
            dmapv (fun x => PF.val ((x - vs.foldl min v) /
              (vs.foldl max v - vs.foldl min v))) sq := by
          rw [show ((dmapv PF.val sq).map (fun p =>
            (p.1, PF.div (PF.sub p.2 (PF.val (vs.foldl min v)))
              (PF.val (vs.foldl max v - vs.foldl min v))))) =
            dmapv (fun q => PF.div (PF.sub q (PF.val (vs.foldl min v)))
              (PF.val (vs.foldl max v - vs.foldl min v)))
              (dmapv PF.val sq) from rfl]
          rw [dmapv_dmapv]
          unfold dmapv
          apply List.map_congr_left
          intro p _
          have hdv : PF.div (PF.sub (PF.val p.2) (PF.val (vs.foldl min v)))
              (PF.val (vs.foldl max v - vs.foldl min v)) =
              PF.val ((p.2 - vs.foldl min v) /
                (vs.foldl max v - vs.foldl min v)) := by
            unfold PF.div PF.sub PF.fdiv
            simp [sub_ne_zero.mpr (ne_of_gt hlt)]
          dsimp only
          rw [hdv]
        rw [hmap]
        unfold dgetD
        rw [dget_dmapv]
        unfold specMinMax
        cases hd : dget sq d with
        | none => simp [hv]
        | some s => simp [hv, hlt]
      · have hc : ¬ (PF.gtB (PF.val (vs.foldl max v - vs.foldl min v))
            (PF.val 0) = true) := by
          unfold PF.gtB
          intro hh
          exact hlt (sub_pos.mp (of_decide_eq_true hh))
        rw [if_neg hc]
        rw [show ((dmapv PF.val sq).map (fun p => (p.1, PF.val 0))) =
          dmapv (fun _ => PF.val 0) (dmapv PF.val sq) from rfl]
        rw [dmapv_dmapv]
        unfold dgetD
        rw [dget_dmapv]
        unfold specMinMax
        cases hd : dget sq d with
        | none => simp [hv]
        | some s => simp [hv, hlt]

theorem combinedScoreOf_val (semR kwR : List Material) (wsem wkw : ℚ)
    (d : String) (sq kq : DMap ℚ)
    (h1 : scoreDict semR "score" = dmapv PF.val sq)
    (h2 : scoreDict kwR "bm25_score" = dmapv PF.val kq) :
    combinedScoreOf semR kwR wsem wkw d =
      PF.val (wsem * specMinMax sq d + wkw * specMinMax kq d) := by
  unfold combinedScoreOf
  rw [h1, h2, normalize_lookup, normalize_lookup]
  rfl

/-- Claim C6, confirmed: whenever the two sub-result score dicts hold
finite floats, the combined score `_combine_results` computes for any doc
id is exactly `w_sem · norm_sem(d) + w_kw · norm_kw(d)`, where each
normalization is the independent min-max map onto [0,1] — `(s-m)/(M-m)`
when `M > m`, else 0 — and a doc id absent from a list contributes 0 for
that list. -/
theorem C6_theorem (semR kwR : List Material) (wsem wkw : ℚ)
    (d : String) (sq kq : DMap ℚ)
    (h1 : scoreDict semR "score" = dmapv PF.val sq)
    (h2 : scoreDict kwR "bm25_score" = dmapv PF.val kq) :
    combinedScoreOf semR kwR wsem wkw d =
      PF.val (wsem * specMinMax sq d + wkw * specMinMax kq d) :=
  combinedScoreOf_val semR kwR wsem wkw d sq kq h1 h2

/-- A semantic sub-result list with one record and a keyword sub-result
list with two, used to exercise the hybrid ranker concretely. -/
def semRex : List Material :=
  [[("_id", MVal.str "a"), ("title", MVal.str "opc cement"),
    ("score", MVal.fl (PF.val (1/2)))]]

/-- Keyword sub-results for the same corpus. -/
def kwRex : List Material :=
  [[("_id", MVal.str "a"), ("title", MVal.str "opc cement"),
    ("bm25_score", MVal.fl (PF.val 1))],
   [("_id", MVal.str "b"), ("title", MVal.str "white cement"),
    ("bm25_score", MVal.fl (PF.val 0))]]

/-- Witness for `C6_theorem` at the concrete sub-results. -/
theorem C6_witness :
    (scoreDict semRex "score" = dmapv PF.val [("a", 1/2)] ∧
     scoreDict kwRex "bm25_score" = dmapv PF.val [("a", 1), ("b", 0)]) ∧
    combinedScoreOf semRex kwRex (6/10) (4/10) "a" =
      PF.val ((6/10) * specMinMax [("a", 1/2)] "a" +
        (4/10) * specMinMax [("a", 1), ("b", 0)] "a") :=
  ⟨⟨by with_unfolding_all decide, by with_unfolding_all decide⟩,
    C6_theorem semRex kwRex (6/10) (4/10) "a" [("a", 1/2)]
      [("a", 1), ("b", 0)] (by with_unfolding_all decide)
      (by with_unfolding_all decide)⟩

/-! ## Claim C7: rounding versus the filter and the sort -/

theorem combineRecord_dget_combined (semR kwR : List Material)
    (wsem wkw : ℚ) (d : String) :
    dget (combineRecord semR kwR wsem wkw d) "combined_score" =
      some (MVal.fl (PF.round4F (combinedScoreOf semR kwR wsem wkw d))) := by
  unfold combineRecord
  dsimp only
  rw [dget_dremove_ne _ _ _ (by decide), dget_dremove_ne _ _ _ (by decide),
    dget_dremove_ne _ _ _ (by decide), dget_dremove_ne _ _ _ (by decide),
    dget_dremove_ne _ _ _ (by decide), dget_dinsert_self]

theorem combineRecord_combined (semR kwR : List Material) (wsem wkw : ℚ)
    (d : String) :
    getPF (combineRecord semR kwR wsem wkw d) "combined_score" =
      PF.round4F (combinedScoreOf semR kwR wsem wkw d) := by
  unfold getPF
  rw [combineRecord_dget_combined]

theorem combineRecord_id (semR kwR : List Material) (wsem wkw : ℚ)
    (d : String) :
    sget (combineRecord semR kwR wsem wkw d) "_id" =
      sget (dgetD (materialsLookup semR kwR) d []) "_id" := by
  unfold combineRecord sget
  dsimp only
  rw [dget_dremove_ne _ _ _ (by decide), dget_dremove_ne _ _ _ (by decide),
    dget_dremove_ne _ _ _ (by decide), dget_dremove_ne _ _ _ (by decide),
    dget_dremove_ne _ _ _ (by decide), dget_dinsert_ne _ _ _ _ (by decide),
    dget_dinsert_ne _ _ _ _ (by decide), dget_dinsert_ne _ _ _ _ (by decide)]

theorem dvals_combineResults (semR kwR : List Material) (wsem wkw : ℚ)
    (enum : List String) :
    dvals (combineResults semR kwR wsem wkw enum) =
      enum.map (combineRecord semR kwR wsem wkw) := by
  unfold combineResults dvals
  rw [List.map_map]
  rfl

/-- Keyword sub-results whose top document has raw score 1 and exact
combined weight just below 0.3. -/
def kwRex7 : List Material :=
  [[("_id", MVal.str "a"), ("bm25_score", MVal.fl (PF.val 1))],
   [("_id", MVal.str "b"), ("bm25_score", MVal.fl (PF.val 0))]]

/-- The keyword weight 0.29996 of the claim C7 counterexample. -/
def wkw7 : ℚ := mkRat 29996 100000

/-- Claim C7 as stated is false: with keyword weight 0.29996 the top
document's exact combined score is 0.29996 < 0.3, yet the stored
`combined_score` rounds to 0.3000 and the `min_score = 0.3` filter of
`HybridSearchEngine.search` reads the stored (rounded) field, so the
document is returned instead of being dropped. -/
theorem C7_counterexample :
    combinedScoreOf [] kwRex7 (6/10) wkw7 "a" = PF.val wkw7 ∧
    wkw7 < 3/10 ∧
    getPF (combineRecord [] kwRex7 (6/10) wkw7 "a") "combined_score" =
      PF.val (3/10) ∧
    ((hybridRank [] kwRex7 (6/10) wkw7 ["a", "b"] (3/10) 5).map
      (fun r => sget r "_id")) = ["a"] := by
  refine ⟨?_, by with_unfolding_all decide, ?_, ?_⟩
  · rw [combinedScoreOf_val [] kwRex7 (6/10) wkw7 "a" []
      [("a", 1), ("b", 0)] (by with_unfolding_all decide)
      (by with_unfolding_all decide)]
    rw [show specMinMax [] "a" = 0 from by with_unfolding_all decide,
      show specMinMax [("a", 1), ("b", 0)] "a" = 1 from by
        with_unfolding_all decide]
    rw [show (6/10 : ℚ) * 0 + wkw7 * 1 = wkw7 from by ring]
  · set_option maxRecDepth 3000 in with_unfolding_all decide
  · set_option maxRecDepth 3000 in with_unfolding_all decide

/-- Claim C7, amended: the `combined_score` stored on each record is the
4-decimal rounding of the exact combined value, and both the `min_score`
filter and the descending sort of `HybridSearchEngine.search` operate on
that stored rounded field — not on the exact value: every returned record
passes `rounded ≥ min_score`, and the number of results is `top_k` capped
by the number of candidates whose *rounded* score passes the filter. -/
theorem C7_amended (semR kwR : List Material) (wsem wkw : ℚ)
    (enum : List String) (ms : ℚ) (k : Nat) :
    (∀ d, getPF (combineRecord semR kwR wsem wkw d) "combined_score" =
      PF.round4F (combinedScoreOf semR kwR wsem wkw d)) ∧
    (∀ r ∈ hybridRank semR kwR wsem wkw enum ms k,
      PF.geQ (getPF r "combined_score") ms = true) ∧
    (hybridRank semR kwR wsem wkw enum ms k).length =
      min k (enum.filter (fun d => PF.geQ (PF.round4F
        (combinedScoreOf semR kwR wsem wkw d)) ms)).length := by
  refine ⟨combineRecord_combined semR kwR wsem wkw, ?_, ?_⟩
  · intro r hr
    unfold hybridRank at hr
    have h2 := List.take_subset _ _ hr
    have h3 := (mem_sortDesc _ _ _).mp h2
    exact (List.mem_filter.mp h3).2
  · unfold hybridRank
    rw [List.length_take, length_sortDesc, dvals_combineResults,
      List.filter_map, List.length_map]
    congr 2
    apply List.filter_congr
    intro d _
    simp only [Function.comp_apply, combineRecord_combined]

/-! ## Claim C8: ordering of the hybrid result list -/

/-- The rational carried by a finite float (0 on specials); on the
records below the score fields are always finite. -/
def pfToQ (p : PF) : ℚ :=
  match p with
  | PF.val x => x
  | _ => 0

/-- Keyword sub-results with two equally scored documents, listed with
the larger doc id first. -/
def kwRex8 : List Material :=
  [[("_id", MVal.str "b"), ("bm25_score", MVal.fl (PF.val 1))],
   [("_id", MVal.str "a"), ("bm25_score", MVal.fl (PF.val 1))]]

/-- Claim C8 as stated is false: for two candidates with equal combined
scores the order of the returned list is the (unspecified) iteration
order of the candidate set — here `["b", "a"]` — because Python's stable
sort keeps the pre-sort order on ties; the smaller doc id "a" does not
precede "b". -/
theorem C8_counterexample :
    combinedScoreOf [] kwRex8 (6/10) (4/10) "a" =
      combinedScoreOf [] kwRex8 (6/10) (4/10) "b" ∧
    ("a" : String) < "b" ∧
    ((hybridRank [] kwRex8 (6/10) (4/10) ["b", "a"] 0 5).map
      (fun r => sget r "_id")) = ["b", "a"] :=
  ⟨by with_unfolding_all decide, by with_unfolding_all decide,
    by with_unfolding_all decide⟩

theorem insDesc_congr {α : Type} (f g : α → α → Bool) (x : α)
    (l : List α) (h : ∀ y ∈ l, f x y = g x y) :
    insDesc f x l = insDesc g x l := by
  induction l with
  | nil => rfl
  | cons y ys ih =>
      unfold insDesc
      rw [h y (by simp)]
      by_cases hg : g x y = true
      · simp [hg]
      · simp only [hg, Bool.false_eq_true, if_false]
        rw [ih (fun z hz => h z (by simp [hz]))]

theorem sortDesc_congr {α : Type} (f g : α → α → Bool) (l : List α)
    (h : ∀ x ∈ l, ∀ y ∈ l, f x y = g x y) :
    sortDesc f l = sortDesc g l := by
  induction l with
  | nil => rfl
  | cons x xs ih =>
      unfold sortDesc
      rw [ih (fun a ha b hb => h a (by simp [ha]) b (by simp [hb]))]
      apply insDesc_congr
      intro y hy
      have hy' : y ∈ xs := (mem_sortDesc g xs y).mp hy
      exact h x (by simp) y (by simp [hy'])

theorem insDesc_pairwise_stable {α : Type} (key : α → ℚ) (rk : α → Nat)
    (x : α) (S : List α)
    (hS : S.Pairwise (fun a b =>
      key b < key a ∨ (key a = key b ∧ rk a < rk b)))
    (hrk : ∀ b ∈ S, rk x < rk b) :
    (insDesc (fun a b => decide (key b ≤ key a)) x S).Pairwise
      (fun a b => key b < key a ∨ (key a = key b ∧ rk a < rk b)) := by
  induction S with
  | nil => simp [insDesc]
  | cons y ys ih =>
      unfold insDesc
      by_cases hxy : key y ≤ key x
      · rw [if_pos (decide_eq_true hxy)]
        constructor
        · intro b hb
          rcases List.mem_cons.mp hb with rfl | hbys
          · rcases lt_or_eq_of_le hxy with hlt | heq
            · exact Or.inl hlt
            · exact Or.inr ⟨heq.symm, hrk b (by simp)⟩
          · have hRyb := (List.pairwise_cons.mp hS).1 b hbys
            have hble : key b ≤ key y := by
              rcases hRyb with hlt | ⟨heq, -⟩
              · exact hlt.le
              · exact le_of_eq heq.symm
            rcases lt_or_eq_of_le (le_trans hble hxy) with hlt | heq
            · exact Or.inl hlt
            · exact Or.inr ⟨heq.symm, hrk b (by simp [hbys])⟩
        · exact hS
      · rw [if_neg (fun hc => hxy (of_decide_eq_true hc))]
        have hyx : key x < key y := not_le.mp hxy
        constructor
        · intro b hb
          have hb' : b ∈ x :: ys :=
            (insDesc_perm _ x ys).mem_iff.mp hb
          rcases List.mem_cons.mp hb' with rfl | hbys
          · exact Or.inl hyx
          · exact (List.pairwise_cons.mp hS).1 b hbys
        · exact ih (List.pairwise_cons.mp hS).2
            (fun b hb => hrk b (by simp [hb]))

theorem sortDesc_pairwise_stable {α : Type} (key : α → ℚ) (rk : α → Nat)
    (l : List α) (hl : l.Pairwise (fun a b => rk a < rk b)) :
    (sortDesc (fun a b => decide (key b ≤ key a)) l).Pairwise
      (fun a b => key b < key a ∨ (key a = key b ∧ rk a < rk b)) := by
  induction l with
  | nil => simp [sortDesc]
  | cons x xs ih =>
      unfold sortDesc
      apply insDesc_pairwise_stable
      · exact ih (List.pairwise_cons.mp hl).2
      · intro b hb
        exact (List.pairwise_cons.mp hl).1 b ((mem_sortDesc _ xs b).mp hb)

/-- Claim C8, amended: the hybrid result list is sorted by the (rounded)
combined score descending, but ties are broken by the enumeration order
of the candidate set — Python's unspecified set-iteration order, which
the stable sort preserves — not by doc id ascending; the list is then
truncated to `top_k`.  Stated for sub-results with finite scores whose
records carry their own `_id`. -/
theorem C8_amended (semR kwR : List Material) (wsem wkw : ℚ) (ms : ℚ)
    (k : Nat) (enum : List String) (sq kq : DMap ℚ)
    (h1 : scoreDict semR "score" = dmapv PF.val sq)
    (h2 : scoreDict kwR "bm25_score" = dmapv PF.val kq)
    (hnd : enum.Nodup)
    (hid : ∀ d ∈ enum,
      sget (dgetD (materialsLookup semR kwR) d []) "_id" = d) :
    (hybridRank semR kwR wsem wkw enum ms k).Pairwise (fun x y =>
      pfToQ (getPF y "combined_score") < pfToQ (getPF x "combined_score") ∨
      (pfToQ (getPF x "combined_score") = pfToQ (getPF y "combined_score") ∧
        enum.indexOf (sget x "_id") < enum.indexOf (sget y "_id"))) := by
  unfold hybridRank
  apply List.Pairwise.sublist (List.take_sublist _ _)
  have hvals : ∀ r ∈ (dvals (combineResults semR kwR wsem wkw
      enum)).filter (fun item =>
        PF.geQ (getPF item "combined_score") ms),
      ∃ c, getPF r "combined_score" = PF.val c := by
    intro r hr
    have hr2 := (List.mem_filter.mp hr).1
    rw [dvals_combineResults] at hr2
    obtain ⟨d, _, rfl⟩ := List.mem_map.mp hr2
    rw [combineRecord_combined,
      combinedScoreOf_val semR kwR wsem wkw d sq kq h1 h2]
    exact ⟨_, rfl⟩
  rw [sortDesc_congr
    (fun x y => PF.geB (getPF x "combined_score")
      (getPF y "combined_score"))
    (fun x y => decide (pfToQ (getPF y "combined_score") ≤
      pfToQ (getPF x "combined_score"))) _
    (by
      intro x hx y hy
      obtain ⟨cx, hcx⟩ := hvals x hx
      obtain ⟨cy, hcy⟩ := hvals y hy
      dsimp only
      rw [hcx, hcy]
      rfl)]
  apply sortDesc_pairwise_stable
    (fun r => pfToQ (getPF r "combined_score"))
    (fun r => enum.indexOf (sget r "_id"))
  apply List.Pairwise.filter
  rw [dvals_combineResults, List.pairwise_map]
  have henum : enum.Pairwise (fun a b =>
      enum.indexOf a < enum.indexOf b) := by
    rw [List.pairwise_iff_getElem]
    intro i j hi hj hij
    rw [List.indexOf_getElem hnd i hi, List.indexOf_getElem hnd j hj]
    exact hij
  apply henum.imp_of_mem
  intro a b ha hb hlt
  rw [combineRecord_id, combineRecord_id, hid a ha, hid b hb]
  exact hlt

/-- Witness for `C8_amended` at the concrete sub-results of claim C6. -/
theorem C8_witness :
    ((["a", "b"] : List String).Nodup ∧
      (∀ d ∈ (["a", "b"] : List String),
        sget (dgetD (materialsLookup semRex kwRex) d []) "_id" = d)) ∧
    (hybridRank semRex kwRex (6/10) (4/10) ["a", "b"] 0 5).Pairwise
      (fun x y =>
        pfToQ (getPF y "combined_score") <
          pfToQ (getPF x "combined_score") ∨
        (pfToQ (getPF x "combined_score") =
          pfToQ (getPF y "combined_score") ∧
          (["a", "b"] : List String).indexOf (sget x "_id") <
            (["a", "b"] : List String).indexOf (sget y "_id"))) :=
  ⟨⟨by with_unfolding_all decide, by with_unfolding_all decide⟩,
    C8_amended semRex kwRex (6/10) (4/10) 0 5 ["a", "b"] [("a", 1/2)]
      [("a", 1), ("b", 0)] (by with_unfolding_all decide)
      (by with_unfolding_all decide) (by with_unfolding_all decide)
      (by with_unfolding_all decide)⟩

/-! ## Claim C9: zero-norm query vectors -/

theorem sumsq_zero (v : List ℚ) (h : ∀ x ∈ v, x = 0) : sumsq v = 0 := by
  unfold sumsq
  apply List.sum_eq_zero
  intro x hx
  obtain ⟨y, hy, rfl⟩ := List.mem_map.mp hx
  rw [h y hy]
  ring

theorem dotQ_zero_right (a b : List ℚ) (h : ∀ x ∈ b, x = 0) :
    dotQ a b = 0 := by
  induction a generalizing b with
  | nil => rfl
  | cons x xs ih =>
      cases b with
      | nil => rfl
      | cons y ys =>
          unfold dotQ
          rw [List.zipWith_cons_cons, List.sum_cons, h y (by simp)]
          have := ih ys (fun z hz => h z (by simp [hz]))
          unfold dotQ at this
          rw [this]
          ring

theorem getD_const {α : Type} (l : List α) (a : α) (i : Nat)
    (h : ∀ x ∈ l, x = a) : l.getD i a = a := by
  induction l generalizing i with
  | nil => cases i <;> rfl
  | cons x xs ih =>
      cases i with
      | zero => exact h x (by simp)
      | succ n => exact ih n (fun z hz => h z (by simp [hz]))

theorem semSimilarities_all_nan (msqrt : ℚ → ℚ) (st : SemState)
    (qv : List ℚ) (hq : ∀ x ∈ qv, x = 0) (hsq : msqrt 0 = 0) :
    ∀ p ∈ semSimilarities msqrt st qv, p = PF.nan := by
  intro p hp
  unfold semSimilarities at hp
  obtain ⟨row, -, rfl⟩ := List.mem_map.mp hp
  rw [sumsq_zero qv hq, hsq, mul_zero, dotQ_zero_right row qv hq]
  unfold PF.fdiv
  simp

/-- Claim C9, amended: `SemanticSearchEngine.search` performs no zero-norm
check and raises nothing; on a query whose embedding is the zero vector
every cosine similarity is the 0/0 `nan` (numpy division by a zero norm
product), every `score >= min_score` comparison with `nan` is false, and
the call returns an ordinary empty result list — never
`InvalidQuery`. -/
theorem C9_amended (encode : String → List ℚ) (msqrt : ℚ → ℚ)
    (st : SemState) (q : String) (k : Nat) (ms : ℚ)
    (hq : ∀ x ∈ encode q, x = 0) (hsq : msqrt 0 = 0) :
    semSearchE encode msqrt st q k ms = Except.ok [] := by
  unfold semSearchE semSearch
  by_cases hempty : st.materials.length = 0
  · simp [hempty]
  · simp only [hempty, if_false]
    congr 1
    apply List.filterMap_eq_nil_iff.mpr
    intro idx _
    have hnan : (semSimilarities msqrt st (encode q)).getD idx PF.nan =
        PF.nan :=
      getD_const _ _ idx (semSimilarities_all_nan msqrt st (encode q) hq hsq)
    rw [hnan]
    rfl

/-- A nonempty vector index with a single unit row. -/
def stSem1 : SemState :=
  ⟨[[("_id", MVal.str "m1"), ("title", MVal.str "cement")]], [[1]]⟩

/-- An embedder producing the zero vector (zero L2 norm). -/
def encZero : String → List ℚ := fun _ => [0]

/-- Stand-in for the float square root in concrete runs; all the
development uses of it are at perfect squares. -/
def idSqrt : ℚ → ℚ := fun x => x

/-- Claim C9 as stated is false: on a nonempty index and a query vector of
zero L2 norm, `search` does not fail with `InvalidQuery` — it returns a
successful empty list computed through the 0/0 `nan` similarities. -/
theorem C9_counterexample :
    stSem1.materials.length ≠ 0 ∧
    (∀ x ∈ encZero "cement", x = 0) ∧
    semSearch encZero idSqrt stSem1 "cement" 5 (3/10) = [] ∧
    semSearchE encZero idSqrt stSem1 "cement" 5 (3/10) ≠
      Except.error SemErr.invalidQuery :=
  ⟨by with_unfolding_all decide, by with_unfolding_all decide,
   by with_unfolding_all decide,
   by intro h; simp [semSearchE] at h⟩

/-- Witness for `C9_amended` at a concrete nonempty index. -/
theorem C9_witness :
    ((∀ x ∈ encZero "steel", x = 0) ∧ idSqrt 0 = 0) ∧
    semSearchE encZero idSqrt stSem1 "steel" 5 (3/10) = Except.ok [] :=
  ⟨⟨by with_unfolding_all decide, rfl⟩,
    C9_amended encZero idSqrt stSem1 "steel" 5 (3/10)
      (by with_unfolding_all decide) rfl⟩

/-! ## Claim C10: searches are read-only and pop embedding fields -/

theorem combineRecord_emb (semR kwR : List Material) (wsem wkw : ℚ)
    (d : String) :
    dget (combineRecord semR kwR wsem wkw d) "embedding" = none ∧
    dget (combineRecord semR kwR wsem wkw d) "embedding_generated_at" =
      none ∧
    dget (combineRecord semR kwR wsem wkw d) "embedding_model" = none := by
  unfold combineRecord
  dsimp only
  refine ⟨?_, ?_, dget_dremove_self _ _⟩
  · rw [dget_dremove_ne _ _ _ (by decide), dget_dremove_ne _ _ _ (by decide)]
    exact dget_dremove_self _ _
  · rw [dget_dremove_ne _ _ _ (by decide)]
    exact dget_dremove_self _ _

/-- Claim C10, confirmed: all three search paths assign no engine state —
the state each threaded search returns is the state it received, so the
stored `docmap`/`materials` entries (embedding fields included) are
untouched — and every returned record is a copy from which the
`embedding`, `embedding_generated_at` and `embedding_model` fields have
been popped. -/
theorem C10_theorem (stem : String → String) (mlog : ℚ → ℚ)
    (encode : String → List ℚ) (msqrt : ℚ → ℚ) (kw : KWState)
    (sem : SemState) (q : String) (k : Nat) (ms wsem wkw : ℚ)
    (enum : List String) :
    (kwSearchS stem mlog kw q k ms).1 = kw ∧
    (semSearchS encode msqrt sem q k ms).1 = sem ∧
    (hybridSearchS stem mlog encode msqrt sem kw q k ms wsem wkw
      enum).1 = (sem, kw) ∧
    (∀ r ∈ (kwSearchS stem mlog kw q k ms).2,
      dget r "embedding" = none ∧
      dget r "embedding_generated_at" = none ∧
      dget r "embedding_model" = none) ∧
    (∀ r ∈ (semSearchS encode msqrt sem q k ms).2,
      dget r "embedding" = none ∧
      dget r "embedding_generated_at" = none ∧
      dget r "embedding_model" = none) ∧
    (∀ r ∈ (hybridSearchS stem mlog encode msqrt sem kw q k ms wsem wkw
        enum).2,
      dget r "embedding" = none ∧
      dget r "embedding_generated_at" = none ∧
      dget r "embedding_model" = none) ∧
    (∀ d m, dget kw.docmap d = some m →
      dget (kwSearchS stem mlog kw q k ms).1.docmap d = some m) ∧
    (semSearchS encode msqrt sem q k ms).1.materials = sem.materials := by
  refine ⟨rfl, rfl, rfl, ?_, ?_, ?_, fun d m h => h, rfl⟩
  · intro r hr
    unfold kwSearchS kwSearch at hr
    by_cases hempty : kw.docmap.length = 0
    · simp [hempty] at hr
    · simp only [hempty, if_false] at hr
      by_cases hq : (tokenize_text stem q).isEmpty
      · simp [hq] at hr
      · simp only [hq, Bool.false_eq_true, if_false] at hr
        obtain ⟨p, -, rfl⟩ := List.mem_map.mp hr
        unfold kwResultRecord
        exact ⟨dget_popEmbFields_embedding _,
          dget_popEmbFields_generated _, dget_popEmbFields_model _⟩
  · intro r hr
    unfold semSearchS semSearch at hr
    by_cases hempty : sem.materials.length = 0
    · simp [hempty] at hr
    · simp only [hempty, if_false] at hr
      obtain ⟨idx, -, hsome⟩ := List.mem_filterMap.mp hr
      rw [Option.ite_none_right_eq_some, Option.some.injEq] at hsome
      rw [← hsome.2]
      exact ⟨dget_popEmbFields_embedding _,
        dget_popEmbFields_generated _, dget_popEmbFields_model _⟩
  · intro r hr
    unfold hybridSearchS at hr
    dsimp only at hr
    unfold hybridRank at hr
    have h2 := List.take_subset _ _ hr
    have h3 := (mem_sortDesc _ _ _).mp h2
    have h4 := (List.mem_filter.mp h3).1
    rw [dvals_combineResults] at h4
    obtain ⟨d, -, rfl⟩ := List.mem_map.mp h4
    exact combineRecord_emb _ _ _ _ d
